import Mathlib

/-!
Verification development for the Portsy content-addressed sync engine
(Go sources under Portsy/backend and the CLI/selftest tool).

The Go code is shallowly embedded: pure fragments become Lean functions,
stateful fragments become explicit state passing over small state records
(a Firestore project subtree, an S3/R2 bucket, the local filesystem view),
machine integers become Int/Nat, and fallible code returns Except/Option.
The embedding models the POSIX ("non-windows") build of the code: there
runtime.GOOS is not "windows", filepath.ToSlash is the identity and no
ASCII lowercasing is applied by the path-normalisation helpers.
-/

namespace Portsy

/-! ## String ordering helpers

Go compares strings byte-wise; on the ASCII data handled here this agrees
with the character-wise lexicographic order defined below.  We use our own
comparison and insertion sort so that every proof obligation reduces in the
kernel. -/

/-- Lexicographic strictly-less-than on character lists; models Go's
built-in string comparison (they agree on ASCII data). -/
def goLtData : List Char → List Char → Bool
  | [], [] => false
  | [], _ :: _ => true
  | _ :: _, [] => false
  | a :: as, b :: bs => if a < b then true else if a = b then goLtData as bs else false

/-- Go's s1 < s2 on strings. -/
def strLt (a b : String) : Bool := goLtData a.data b.data

/-- Go's s1 <= s2 on strings (negation of strict greater-than). -/
def strLe (a b : String) : Bool := !(strLt b a)

/-- Insert an element into a list so that elements judged le stay in front;
helper of the sorting routine modelling sort.Slice. -/
def insertBy (le : α → α → Bool) (a : α) : List α → List α
  | [] => [a]
  | b :: l => if le a b then a :: b :: l else b :: insertBy le a l

/-- Insertion sort; models the effect of Go's sort.Slice with a
strict-less comparator (for the manifests handled here the sort keys are
pairwise distinct, so any correct sort produces the same list). -/
def sortBy (le : α → α → Bool) : List α → List α
  | [] => []
  | a :: l => insertBy le a (sortBy le l)

/-- Replace the value stored under a key in an association list, or append
the binding; models a document Set in a keyed collection. -/
def setKey (k : String) (v : α) : List (String × α) → List (String × α)
  | [] => [(k, v)]
  | (k', v') :: rest => if k' = k then (k, v) :: rest else (k', v') :: setKey k v rest

/-- Join two path components with a slash; models Go's path.Join on
already-clean, slash-free-at-the-seam components. -/
def pathJoin (a b : String) : String :=
  if a = "" then b else if b = "" then a else a ++ "/" ++ b

/-! ## Data model (types.go / remote/firebase.go) -/

/-- FileEntry of types.go and remote/firebase.go: one tracked file. -/
structure FileEntry where
  path : String
  hash : String
  size : Int
  modified : Int
  r2Key : String
deriving Repr, DecidableEq

/-- ProjectState of types.go and remote/firebase.go: a manifest snapshot. -/
structure ProjectState where
  projectName : String
  projectPath : String
  files : List FileEntry
  createdAt : Int
  algo : String
deriving Repr, DecidableEq

/-- CommitMeta of types.go and remote/firebase.go. -/
structure CommitMeta where
  id : String
  message : String
  timestamp : Int
  userId : String
  parentId : String
  status : String
deriving Repr, DecidableEq

/-- ProjectDoc of remote/firebase.go: the per-project HEAD document
(the write-only NameLower mirror field is omitted from the model). -/
structure ProjectDoc where
  name : String
  lastCommitId : String
  lastCommitAt : Int
  last5 : List String
deriving Repr, DecidableEq

/-! ## LocalCache and manifest diff (localcache.go) -/

/-- LocalCache record persisted at .portsy/cache.json.  The manifest map
is modelled as an association list with the keys in some iteration order;
updatedAt is kept as an opaque timestamp string. -/
structure LocalCache where
  version : Int
  algo : String
  updatedAt : String
  manifest : List (String × String)
deriving Repr, DecidableEq

/-- Models runtime.GOOS == "windows".  This development models the POSIX
build, so the flag is false and the windows-only lowercasing is inert. -/
def goosWindows : Bool := false

/-- lowerASCII of localcache.go: ASCII-only lowercasing. -/
def lowerASCII (s : String) : String :=
  ⟨s.data.map (fun c => if 'A' ≤ c ∧ c ≤ 'Z' then Char.ofNat (c.toNat + 32) else c)⟩

/-- normalizeKey of localcache.go: filepath.ToSlash (the identity on the
POSIX build) plus windows-only lowercasing. -/
def normalizeKey (p : String) : String :=
  if goosWindows then lowerASCII p else p

/-- normalizeManifestKeys of localcache.go. -/
def normalizeManifestKeys (m : List (String × String)) : List (String × String) :=
  if m.length = 0 then m
  else if !goosWindows then m
  else m.map (fun kv => (normalizeKey kv.1, kv.2))

/-- Outcome of os.ReadFile as seen by LoadLocalCache: the two error
classes it distinguishes are ENOENT and everything else. -/
inductive ReadErr where
  | notExist
  | other
deriving Repr, DecidableEq

/-- Raw decode of cache.json by encoding/json before defaults are applied;
a nil manifest map decodes to none. -/
structure RawCache where
  version : Int
  algo : String
  updatedAt : String
  manifest : Option (List (String × String))
deriving Repr, DecidableEq

/-- Result of LoadLocalCache together with its side channel: the returned
cache and whether preserveCorruptCache archived the corrupt bytes to a
sibling cache.bad-timestamp.json file. -/
structure LoadResult where
  cache : LocalCache
  preservedCorrupt : Bool
deriving Repr, DecidableEq

/-- Empty cache value LoadLocalCache falls back to (version 1, default
algo sha256, empty manifest). -/
def emptyCache : LocalCache :=
  { version := 1, algo := "sha256", updatedAt := "", manifest := [] }

/-- LoadLocalCache of localcache.go.  The file read is passed in as an
Except value and the JSON decoder as a function, exactly separating the
library effects from the control flow under verification: missing file
yields the empty cache, a decode failure preserves the corrupt bytes and
yields the empty cache, any other read error is surfaced. -/
def LoadLocalCache (readResult : Except ReadErr String)
    (decode : String → Option RawCache) : Except String LoadResult :=
  match readResult with
  | .error .notExist => .ok { cache := emptyCache, preservedCorrupt := false }
  | .error .other => .error "read local cache"
  | .ok bytes =>
    match decode bytes with
    | none => .ok { cache := emptyCache, preservedCorrupt := true }
    | some raw =>
      let manifest := match raw.manifest with
        | none => []
        | some m => m
      let version : Int := if raw.version = 0 then 1 else raw.version
      let algo := if raw.algo = "" then "sha256" else raw.algo
      .ok { cache := { version := version, algo := algo, updatedAt := raw.updatedAt,
                       manifest := normalizeManifestKeys manifest },
            preservedCorrupt := false }

/-- FileChange of localcache.go. -/
structure FileChange where
  path : String
  type : String
deriving Repr, DecidableEq

/-- First pass of DiffManifests over one current entry: a key absent
from the cached manifest is added, a key present with a different hash
is modified, an unchanged key is dropped. -/
def diffFirstPassF (cached : List (String × String)) (pv : String × String) :
    Option FileChange :=
  match cached.lookup (normalizeKey pv.1) with
  | none => some { path := normalizeKey pv.1, type := "added" }
  | some ch =>
    if ch ≠ pv.2 then some { path := normalizeKey pv.1, type := "modified" } else none

/-- Second pass of DiffManifests over one cached entry: a cached key the
first pass never saw is deleted. -/
def diffDeletedF (seen : List String) (pv : String × String) : Option FileChange :=
  if seen.contains pv.1 then none else some { path := pv.1, type := "deleted" }

/-- DiffManifests of localcache.go: classify current-vs-cached manifest
keys as added, modified or deleted, then sort by path.  The Go maps are
modelled as association lists in iteration order; the seen set equals
the normalized current key set because the second loop only runs after
the first completes.  The function is pure in the source as in the model
(no disk access). -/
def DiffManifests (current cached : List (String × String)) : List FileChange :=
  sortBy (fun a b => strLe a.path b.path)
    (current.filterMap (diffFirstPassF cached)
      ++ cached.filterMap (diffDeletedF (current.map (fun pv => normalizeKey pv.1))))

/-! ## Blob store (R2 client, conditional PUT) -/

/-- Bucket contents of the R2/S3 blob store: key to object body. -/
structure S3State where
  objects : List (String × String)
deriving Repr, DecidableEq

/-- HeadObject-based existence check of the R2 client (a 404 maps to
false, not an error). -/
def s3Exists (s : S3State) (key : String) : Bool :=
  (s.objects.lookup key).isSome

/-- Service-side answer to a conditional PUT. -/
inductive PutCondResult where
  | created
  | preconditionFailed
deriving Repr, DecidableEq

/-- Conditional PUT with an If-None-Match star header, modelled from the
S3/R2 service semantics: the body is stored only when the key is absent,
otherwise the service answers HTTP 412 and stores nothing. -/
def putIfNoneMatchStar (s : S3State) (key content : String) : S3State × PutCondResult :=
  if s3Exists s key then (s, .preconditionFailed)
  else ({ objects := setKey key content s.objects }, .created)

/-- Outcome of one upload call: resulting bucket, success flag, and
whether a PUT request was issued at all (instrumentation used to state
that no re-upload happens). -/
structure UploadOutcome where
  s3 : S3State
  ok : Bool
  performedPut : Bool
deriving Repr, DecidableEq

/-- UploadFileIfNoneMatch of the R2 client: opens the local file (none
models an open failure), issues the conditional PUT, and treats a 412
precondition-failed answer as success. -/
def UploadFileIfNoneMatch (s : S3State) (localContent : Option String)
    (key : String) : UploadOutcome :=
  match localContent with
  | none => { s3 := s, ok := false, performedPut := false }
  | some content =>
    let pr := putIfNoneMatchStar s key content
    match pr.2 with
    | .preconditionFailed => { s3 := pr.1, ok := true, performedPut := true }
    | .created => { s3 := pr.1, ok := true, performedPut := true }

/-- UploadIfMissing of the R2 client: HEAD first, return success without
any PUT when the key already exists, otherwise fall back to the
conditional PUT (412 again treated as success). -/
def UploadIfMissing (s : S3State) (localContent : Option String)
    (key : String) : UploadOutcome :=
  if s3Exists s key then { s3 := s, ok := true, performedPut := false }
  else UploadFileIfNoneMatch s localContent key

/-- Accumulated outcome of iterating UploadIfMissing: final bucket,
whether every call succeeded, and how many PUT requests were issued. -/
structure RunNOutcome where
  s3 : S3State
  allOk : Bool
  puts : Nat
deriving Repr, DecidableEq

/-- Run UploadIfMissing n times in sequence on the same arguments. -/
def UploadIfMissingN (localContent : Option String) (key : String) :
    Nat → S3State → RunNOutcome
  | 0, s => { s3 := s, allOk := true, puts := 0 }
  | n + 1, s =>
    let o := UploadIfMissing s localContent key
    let rest := UploadIfMissingN localContent key n o.s3
    { s3 := rest.s3, allOk := o.ok && rest.allOk,
      puts := (if o.performedPut then 1 else 0) + rest.puts }

/-- BuildKey of the R2 client: optional-prefix/projectName/blobs/hash. -/
def BuildKey (keyPfx projectName hash : String) : String :=
  let base := pathJoin (pathJoin projectName "blobs") hash
  if keyPfx ≠ "" then pathJoin keyPfx base else base

/-- CopyIfMissing of the R2 client: identity when source equals target,
silent success when the target already exists, otherwise a server-side
copy (which fails when the source key is absent). -/
def CopyIfMissing (s : S3State) (fromKey toKey : String) : Except String S3State :=
  if fromKey = toKey then .ok s
  else if s3Exists s toKey then .ok s
  else
    match s.objects.lookup fromKey with
    | none => .error "copy source missing"
    | some content => .ok { objects := setKey toKey content s.objects }

/-! ## MetaStore (remote/firebase.go)

The Firestore subtree of one project is modelled as a record: the project
document plus the commits and states subcollections as keyed collections.
Operations on distinct projects touch disjoint documents, so the claims,
all per-project, are stated over this single-project view.  Wall-clock
reads (time.Now().Unix()) become an explicit now argument. -/

/-- Firestore subtree of one project. -/
structure Repo where
  doc : Option ProjectDoc
  commits : List (String × CommitMeta)
  states : List (String × ProjectState)
deriving Repr, DecidableEq

/-- Project document synthesized when the stored one is absent
(ProjectDoc with only Name set). -/
def emptyDoc (projectName : String) : ProjectDoc :=
  { name := projectName, lastCommitId := "", lastCommitAt := 0, last5 := [] }

/-- UpsertLatestState of remote/firebase.go: a MergeAll Set of the header
fields Name, LastCommitID, LastCommitAt (the merge leaves Last5 alone),
then plain Sets of the commit and state documents.  One-phase: HEAD is
advanced in the very first write, before the commit and state documents
exist, with no status transition and no blob verification. -/
def UpsertLatestState (projectName : String) (state : ProjectState)
    (commit : CommitMeta) (r : Repo) : Repo :=
  let doc0 := r.doc.getD { name := "", lastCommitId := "", lastCommitAt := 0, last5 := [] }
  let doc1 := { doc0 with name := projectName, lastCommitId := commit.id,
                          lastCommitAt := commit.timestamp }
  { doc := some doc1,
    commits := setKey commit.id commit r.commits,
    states := setKey commit.id state r.states }

/-- BeginCommit of remote/firebase.go: batch-write the commit with status
pending (stamping the timestamp when zero) and its draft state, and merge
the bare project document into existence; HEAD is not touched. -/
def BeginCommit (projectName : String) (commit : CommitMeta) (state : ProjectState)
    (now : Int) (r : Repo) : Repo :=
  let c1 := { commit with status := "pending" }
  let c2 := if c1.timestamp = 0 then { c1 with timestamp := now } else c1
  let doc0 := r.doc.getD { name := "", lastCommitId := "", lastCommitAt := 0, last5 := [] }
  let doc1 := { doc0 with name := projectName }
  { doc := some doc1,
    commits := setKey c2.id c2 r.commits,
    states := setKey c2.id state r.states }

/-- Last5 clamp of FinalizeCommit: keep the most recent five ids. -/
def trimLast5 (l : List String) : List String :=
  if l.length > 5 then l.drop (l.length - 5) else l

/-- FinalizeCommit of remote/firebase.go: verify every file hash outside
the transaction, then transactionally read the project document
(synthesizing an empty one when absent), write the commit with status
final (stamping the timestamp when zero), write the state, advance HEAD
and append the commit id to Last5 clamped to five. -/
def FinalizeCommit (projectName : String) (commit : CommitMeta) (state : ProjectState)
    (verify : String → Bool) (now : Int) (r : Repo) : Except String Repo :=
  if state.files.all (fun fe => verify fe.hash) then
    let proj := r.doc.getD (emptyDoc projectName)
    let c1 := { commit with status := "final" }
    let c2 := if c1.timestamp = 0 then { c1 with timestamp := now } else c1
    let newLast := trimLast5 (proj.last5 ++ [commit.id])
    let proj2 := { proj with name := projectName, lastCommitId := commit.id,
                             lastCommitAt := c2.timestamp, last5 := newLast }
    .ok { doc := some proj2,
          commits := setKey c2.id c2 r.commits,
          states := setKey c2.id state r.states }
  else .error "verify blob: missing"

/-- GetLatestState of remote/firebase.go: read the project document (a
missing document or an empty LastCommitID yields none), then fetch the
HEAD commit and state documents (missing ones are errors). -/
def GetLatestState (r : Repo) : Except String (Option (ProjectState × CommitMeta)) :=
  match r.doc with
  | none => .ok none
  | some pd =>
    if pd.lastCommitId = "" then .ok none
    else
      match r.commits.lookup pd.lastCommitId with
      | none => .error "get commit"
      | some cm =>
        match r.states.lookup pd.lastCommitId with
        | none => .error "get state"
        | some st => .ok (some (st, cm))

/-! ## Push pipeline (sync.go PushProject, and the selftest smoke push)

The world visible to a push: the project's Firestore subtree, the blob
bucket, and an instrumentation log that records which metadata-mutating
MetaStore method each wrapper invoked. -/

/-- World state threaded through a push. -/
structure PushWorld where
  repo : Repo
  s3 : S3State
  calls : List String
deriving Repr, DecidableEq

/-- Instrumented UpsertLatestState: applies the store operation and logs
the method name. -/
def upsertLatestStateW (projectName : String) (state : ProjectState)
    (commit : CommitMeta) (w : PushWorld) : PushWorld :=
  { w with repo := UpsertLatestState projectName state commit w.repo,
           calls := w.calls ++ ["UpsertLatestState"] }

/-- Instrumented BeginCommit. -/
def beginCommitW (projectName : String) (commit : CommitMeta) (state : ProjectState)
    (now : Int) (w : PushWorld) : PushWorld :=
  { w with repo := BeginCommit projectName commit state now w.repo,
           calls := w.calls ++ ["BeginCommit"] }

/-- Instrumented FinalizeCommit. -/
def finalizeCommitW (projectName : String) (commit : CommitMeta) (state : ProjectState)
    (verify : String → Bool) (now : Int) (w : PushWorld) : Except String PushWorld :=
  match FinalizeCommit projectName commit state verify now w.repo with
  | .error e => .error e
  | .ok r' => .ok { w with repo := r', calls := w.calls ++ ["FinalizeCommit"] }

/-- Work item of PushProject's classification loop. -/
inductive PushJob where
  | upload (key : String)
  | migrate (fromKey key : String)
deriving Repr, DecidableEq

/-- Step 2 of PushProject: decide per file whether to upload, migrate the
blob server-side, or carry the previous blob key forward. -/
def classifyFile (prevByPath : List (String × FileEntry)) (hasPrev : Bool)
    (keyPfx projectName : String) (f : FileEntry) : FileEntry × Option PushJob :=
  let desiredKey := BuildKey keyPfx projectName f.hash
  if !hasPrev then (f, some (.upload desiredKey))
  else
    match prevByPath.lookup f.path with
    | some pf =>
      if pf.hash ≠ f.hash then (f, some (.upload desiredKey))
      else if pf.r2Key = desiredKey then ({ f with r2Key := pf.r2Key }, none)
      else (f, some (.migrate pf.r2Key desiredKey))
    | none => (f, some (.upload desiredKey))

/-- One worker job of PushProject: a migration with a usable source key
uses the server-side copy, everything else the idempotent conditional
upload; on success the file records the desired blob key. -/
def runJob (projectPath : String) (localContent : String → Option String)
    (s : S3State) (f : FileEntry) : Option PushJob → Except String (S3State × FileEntry)
  | none => .ok (s, f)
  | some (.migrate fromKey key) =>
    if fromKey ≠ "" ∧ fromKey ≠ key then
      match CopyIfMissing s fromKey key with
      | .error e => .error e
      | .ok s' => .ok (s', { f with r2Key := key })
    else
      let o := UploadIfMissing s (localContent (pathJoin projectPath f.path)) key
      if o.ok then .ok (o.s3, { f with r2Key := key }) else .error "upload"
  | some (.upload key) =>
    let o := UploadIfMissing s (localContent (pathJoin projectPath f.path)) key
    if o.ok then .ok (o.s3, { f with r2Key := key }) else .error "upload"

/-- Fold step executing classification plus worker job for one file.  The
bounded worker pool is modelled sequentially: jobs touch the bucket only
through idempotent key inserts, so on the success path every
interleaving produces the same bucket, and on failure PushProject
returns the first error without writing metadata, as in the source. -/
def pushStep (prevByPath : List (String × FileEntry)) (hasPrev : Bool)
    (keyPfx projectName projectPath : String) (localContent : String → Option String)
    (acc : Except String (S3State × List FileEntry)) (f : FileEntry) :
    Except String (S3State × List FileEntry) :=
  match acc with
  | .error e => .error e
  | .ok (s, done) =>
    let cl := classifyFile prevByPath hasPrev keyPfx projectName f
    match runJob projectPath localContent s cl.1 cl.2 with
    | .error e => .error e
    | .ok (s', f2) => .ok (s', done ++ [f2])

/-- Previous-state lookup of PushProject: GetLatestState with errors
ignored, exactly as the source discards them. -/
def prevStateOf (r : Repo) : Option ProjectState :=
  match GetLatestState r with
  | .ok (some (st, _)) => some st
  | _ => none

/-- prevByPath map of PushProject. -/
def prevByPathOf : Option ProjectState → List (String × FileEntry)
  | some p => p.files.map (fun pf => (pf.path, pf))
  | none => []

/-- PushProject of sync.go, success path and first-error path: build the
current state (the manifest built by the Scanner is passed in as cur0 and
stamped with the project name and path), look up the previous state
(errors ignored, as in the source), classify and execute the uploads and
migrations, then record the metadata with the one-phase
UpsertLatestState. -/
def PushProject (keyPfx projectName projectPath : String)
    (localContent : String → Option String) (cur0 : ProjectState)
    (commit : CommitMeta) (w : PushWorld) : Except String PushWorld :=
  match cur0.files.foldl
      (pushStep (prevByPathOf (prevStateOf w.repo)) (prevStateOf w.repo).isSome
        keyPfx projectName projectPath localContent)
      (.ok (w.s3, [])) with
  | .error e => .error e
  | .ok (s', files') =>
    .ok (upsertLatestStateW projectName
          { projectName := projectName, projectPath := projectPath, files := files',
            createdAt := cur0.createdAt, algo := cur0.algo } commit
          { w with s3 := s' })

/-- Upload step of the smoke push: every blob is uploaded (idempotently)
at its built key and the entry records that key. -/
def smokeUploadStep (keyPfx projectName projectPath : String)
    (localContent : String → Option String)
    (acc : Except String (S3State × List FileEntry)) (fe : FileEntry) :
    Except String (S3State × List FileEntry) :=
  match acc with
  | .error e => .error e
  | .ok (s, done) =>
    let key := BuildKey keyPfx projectName fe.hash
    let o := UploadIfMissing s (localContent (pathJoin projectPath fe.path)) key
    if o.ok then .ok (o.s3, done ++ [{ fe with r2Key := key }]) else .error "upload"

/-- Metadata phase of smokePush in the selftest tool: upload every blob at
its built key, then BeginCommit and FinalizeCommit with
verify(hash) = Exists(BuildKey(projectName, hash)). -/
def smokePushMeta (keyPfx projectName projectPath : String)
    (localContent : String → Option String) (st0 : ProjectState)
    (cm : CommitMeta) (now : Int) (w : PushWorld) : Except String PushWorld :=
  match st0.files.foldl (smokeUploadStep keyPfx projectName projectPath localContent)
      (.ok (w.s3, [])) with
  | .error e => .error e
  | .ok (s', files') =>
    finalizeCommitW projectName cm { st0 with files := files' }
      (fun h => s3Exists s' (BuildKey keyPfx projectName h)) now
      (beginCommitW projectName cm { st0 with files := files' } now { w with s3 := s' })

/-! ## Scanner (hash.go BuildManifest)

The directory tree handed to filepath.WalkDir is modelled as a forest.
Symlinks (to files or directories) appear as non-directory entries with
the symlink mode bit, exactly as WalkDir reports them without following;
an unreadable directory is one whose ReadDir fails, which WalkDir reports
through a walkErr callback that BuildManifest swallows.  Each file node
carries the data HashFileSHA256 would produce: whether hashing succeeds,
the SHA-256 hex digest of its content, and the stat size and mtime. -/

/-- Observable data of one regular file. -/
structure FileMeta where
  hashable : Bool
  sha256 : String
  size : Int
  modified : Int
deriving Repr, DecidableEq

/-- Directory-tree node. -/
inductive FsEntry where
  | file (name : String) (meta : FileMeta)
  | symlink (name : String)
  | dir (name : String) (readable : Bool) (children : List FsEntry)

/-- Name of a tree node. -/
def entryName : FsEntry → String
  | .file n _ => n
  | .symlink n => n
  | .dir n _ _ => n

/-- Directory names BuildManifest skips (SkipDir). -/
def skipDirNames : List String :=
  [".portsy", "Build", "Cache", ".git", ".idea", ".vs", ".svn", ".hg",
   "Ableton Project Info"]

/-- Platform junk file names BuildManifest skips. -/
def junkFileNames : List String := [".DS_Store", "Thumbs.db", "desktop.ini"]

/-- HashFileSHA256 of hash.go on a regular file: fails when the file
cannot be read, otherwise returns the SHA-256 digest with the stat size
and mtime (directories and symlinks never reach it inside the walk). -/
def hashFileSHA256 (m : FileMeta) : Option (String × Int × Int) :=
  if m.hashable then some (m.sha256, m.size, m.modified) else none

/-- Prefix a manifest path with a directory name.  In the source the
relative path is computed by filepath.Rel from the absolute walk path;
for a file at root/d1/.../dk/name that is d1/.../dk/name, which this
recursion reconstructs top-down. -/
def prependDir (dirName : String) (fe : FileEntry) : FileEntry :=
  { fe with path := dirName ++ "/" ++ fe.path }

mutual

/-- One WalkDir visit of BuildManifest: skipped directory names prune the
subtree, unreadable directories contribute nothing (their walkErr is
swallowed), symlinked entries are skipped, junk file names are skipped,
files that fail hashing are skipped, and every remaining file yields a
manifest entry. -/
def walkEntry : FsEntry → List FileEntry
  | .symlink _ => []
  | .file name m =>
    if junkFileNames.contains name then []
    else
      match hashFileSHA256 m with
      | none => []
      | some (h, sz, md) =>
        [{ path := name, hash := h, size := sz, modified := md, r2Key := "" }]
  | .dir name readable children =>
    if skipDirNames.contains name then []
    else if !readable then []
    else (walkEntries children).map (prependDir name)

/-- Walk a list of sibling entries in order. -/
def walkEntries : List FsEntry → List FileEntry
  | [] => []
  | e :: es => walkEntry e ++ walkEntries es

end

/-- Root directory handed to BuildManifest. -/
structure FsRoot where
  name : String
  readable : Bool
  children : List FsEntry

/-- BuildManifest of hash.go: walk the project tree collecting file
entries (the walk callback swallows every walk error, including an
unreadable root, and the skip-directory switch also applies to the root
itself), sort ascending by path, and return a ProjectState carrying only
Files and CreatedAt (ProjectName, ProjectPath and Algo are left zero). -/
def BuildManifest (root : FsRoot) (now : Int) : Except String ProjectState :=
  let files :=
    if skipDirNames.contains root.name then []
    else if !root.readable then []
    else walkEntries root.children
  .ok { projectName := "", projectPath := "",
        files := sortBy (fun a b => strLe a.path b.path) files,
        createdAt := now, algo := "" }

/-- Hash-algorithm dispatch of the verify helper in sync.go PullProject:
the empty legacy value and both sha256 spellings select SHA-256, blake3
selects BLAKE3, anything else is rejected. -/
inductive AlgoKind where
  | sha256
  | blake3
  | unknown
deriving Repr, DecidableEq

/-- Resolution of a ProjectState algo string by the code's own verify
dispatch. -/
def resolveAlgo (algo : String) : AlgoKind :=
  if algo = "sha256" ∨ algo = "SHA-256" ∨ algo = "" then .sha256
  else if algo = "blake3" then .blake3
  else .unknown

mutual

/-- SHA-256 digests of all files in a subtree (the model field FileMeta
sha256 is by construction the digest HashFileSHA256 computes). -/
def treeSha256s : FsEntry → List String
  | .file _ m => [m.sha256]
  | .symlink _ => []
  | .dir _ _ children => treeSha256sL children

/-- SHA-256 digests of all files under a list of sibling entries. -/
def treeSha256sL : List FsEntry → List String
  | [] => []
  | e :: es => treeSha256s e ++ treeSha256sL es

end

/-- Split a character list at every slash; the segments of a path. -/
def splitSegCL : List Char → List (List Char)
  | [] => [[]]
  | c :: rest =>
    match splitSegCL rest with
    | [] => []
    | s :: ss => if c = '/' then [] :: s :: ss else (c :: s) :: ss

/-- Segments of a path string. -/
def pathSegs (p : String) : List String :=
  (splitSegCL p.data).map (fun l => ⟨l⟩)

/-- Well-formed directory-entry name: what a ReadDir can actually return
(never empty, never dot or dot-dot, never containing a separator). -/
def validNameB (n : String) : Bool :=
  n ≠ "" && n ≠ "." && n ≠ ".." && !(n.data.contains '/')

/-- Pairwise distinctness of sibling names (a directory cannot hold two
entries with the same name). -/
def namesNodup : List String → Bool
  | [] => true
  | n :: ns => !(ns.contains n) && namesNodup ns

mutual

/-- Well-formed tree node: valid name, and for directories pairwise
distinct child names and well-formed children. -/
def wfEntry : FsEntry → Bool
  | .file n _ => validNameB n
  | .symlink n => validNameB n
  | .dir n _ children =>
    validNameB n && namesNodup (children.map entryName) && wfEntriesAll children

/-- All members well-formed. -/
def wfEntriesAll : List FsEntry → Bool
  | [] => true
  | e :: es => wfEntry e && wfEntriesAll es

end

/-- Well-formed sibling list: distinct names and well-formed members. -/
def wfEntries (l : List FsEntry) : Bool :=
  namesNodup (l.map entryName) && wfEntriesAll l

/-- First segment of a path. -/
def headSeg (p : String) : String := (pathSegs p).headD ""

/-- No segment of the path is a dot-dot. -/
def noDotDotSegs (p : String) : Bool := (pathSegs p).all (fun s => s ≠ "..")

/-- Every non-final segment (the directories the file lies under) avoids
the ignored directory names, .portsy included. -/
def dirSegsAllowed (p : String) : Bool :=
  ((pathSegs p).dropLast).all (fun s => !skipDirNames.contains s)

/-- Keys of an association list. -/
def keysOf (l : List (String × α)) : List String := l.map Prod.fst

/-! ## Pull (sync.go PullProject, per-file worker) -/

/-- Observable state of one local file: whether the path names a regular
file, the digests of its current content, and its times. -/
structure LocalFile where
  regular : Bool
  sha256 : String
  blake3 : String
  mtime : Int
  atime : Int
deriving Repr, DecidableEq

/-- A stored blob as the verifier sees it after download: the digests of
the object body. -/
structure RemoteObj where
  sha256 : String
  blake3 : String
deriving Repr, DecidableEq

/-- Verify helper of PullProject: compare the local file's digest under
the state's algo against the wanted hex digest; unknown algos error. -/
def verifyLocal (lf : LocalFile) (algo want : String) : Except String Bool :=
  match resolveAlgo algo with
  | .sha256 => .ok (lf.sha256 = want)
  | .blake3 => .ok (lf.blake3 = want)
  | .unknown => .error "unknown hash algo"

/-- Download branch of the PullProject worker: resolve the key (stored
blobKey or BuildKey), download atomically (a missing key is an error),
verify the downloaded bytes, then set the file times with
os.Chtimes(localPath, time.Now(), time.Unix(0, 0)): access time now,
modification time the Unix epoch. -/
def downloadAndVerify (keyPfx projectName : String) (blobs : String → Option RemoteObj)
    (algo : String) (rf : FileEntry) (now : Int) : Except String (LocalFile × Bool) :=
  let key := if rf.r2Key = "" then BuildKey keyPfx projectName rf.hash else rf.r2Key
  match blobs key with
  | none => .error "download: key not found"
  | some obj =>
    let f1 : LocalFile :=
      { regular := true, sha256 := obj.sha256, blake3 := obj.blake3,
        mtime := now, atime := now }
    match verifyLocal f1 algo rf.hash with
    | .error e => .error e
    | .ok ok =>
      if !ok then .error "hash mismatch"
      else .ok ({ f1 with atime := now, mtime := 0 }, true)

/-- Per-file worker of PullProject: a missing or non-regular local file,
or one that fails content verification, is (re)downloaded and verified;
a file that verifies in place is left untouched.  The returned flag is
the worker's downloaded marker. -/
def pullEnsureFile (keyPfx projectName : String) (blobs : String → Option RemoteObj)
    (algo : String) (rf : FileEntry) (lf : Option LocalFile) (now : Int) :
    Except String (LocalFile × Bool) :=
  match lf with
  | none => downloadAndVerify keyPfx projectName blobs algo rf now
  | some f =>
    if !f.regular then downloadAndVerify keyPfx projectName blobs algo rf now
    else
      match verifyLocal f algo rf.hash with
      | .error _ => downloadAndVerify keyPfx projectName blobs algo rf now
      | .ok true => .ok (f, false)
      | .ok false => downloadAndVerify keyPfx projectName blobs algo rf now

/-! ## Watcher (watcher.go WatchProjectALS)

The select loop is modelled as a deterministic run over a time-stamped
trace of filesystem events.  Times are naturals (milliseconds).  The
debounce timer is the deadline field of the state; a pending deadline
d fires before an event that arrives at a time t with d ≤ t is handled,
and once more after the trace ends (the quiescent epilogue).  Within a
burst whose gaps are shorter than the debounce no event ever arrives at
or after the deadline, so the select race between the two channels never
materialises under the hypotheses of the claims. -/

/-- Go filepath.Clean (POSIX rules), one segment-stack step. -/
def cleanStep (abs : Bool) (out : List String) (seg : String) : List String :=
  if seg = "" ∨ seg = "." then out
  else if seg = ".." then
    match out.getLast? with
    | some l => if l = ".." then out ++ [".."] else out.dropLast
    | none => if abs then [] else [".."]
  else out ++ [seg]

/-- Go filepath.Clean on the POSIX build. -/
def pathClean (p : String) : String :=
  if p = "" then "." else
  let abs := p.data.head? = some '/'
  let out := (pathSegs p).foldl (cleanStep abs) []
  let body := String.intercalate "/" out
  if abs then (if body = "" then "/" else "/" ++ body)
  else (if body = "" then "." else body)

/-- Index of the last slash of a character list. -/
def lastSlashIdx (l : List Char) : Option Nat :=
  match l.reverse.findIdx? (fun c => c = '/') with
  | none => none
  | some j => some (l.length - 1 - j)

/-- Go filepath.Dir on the POSIX build. -/
def pathDir (p : String) : String :=
  match lastSlashIdx p.data with
  | none => "."
  | some i => pathClean ⟨p.data.take (i + 1)⟩

/-- Drop trailing slashes of a character list. -/
def dropTrailingSlashes (l : List Char) : List Char :=
  (l.reverse.dropWhile (fun c => c = '/')).reverse

/-- Go filepath.Base on the POSIX build. -/
def pathBase (p : String) : String :=
  if p = "" then "." else
  let l := dropTrailingSlashes p.data
  if l = [] then "/" else
  match lastSlashIdx l with
  | none => ⟨l⟩
  | some i => ⟨l.drop (i + 1)⟩

/-- Suffix test on strings. -/
def strEndsWith (s suf : String) : Bool :=
  decide (suf.data.length ≤ s.data.length) &&
  s.data.drop (s.data.length - suf.data.length) == suf.data

/-- mkLC helper of WatchProjectALS: strings.ToLower(filepath.Clean(p)),
with the lowercasing modelled for ASCII data. -/
def mkLC (p : String) : String := lowerASCII (pathClean p)

/-- isRealALS helper of WatchProjectALS: a lowercased base name counts as
a real session file when it ends in .als and is not a backup or temp
variant. -/
def isRealALS (baseLower : String) : Bool :=
  if !(strEndsWith baseLower ".als") then false
  else if strEndsWith baseLower ".als~" || strEndsWith baseLower ".als.tmp" then false
  else true

/-- Filesystem event operations (fsnotify.Op bits). -/
inductive FsOp where
  | write
  | create
  | rename
  | chmod
  | remove
deriving Repr, DecidableEq

/-- Whether the loop reacts to an operation bit
(Write, Create, Rename, Chmod). -/
def isReactOp : FsOp → Bool
  | .write => true
  | .create => true
  | .rename => true
  | .chmod => true
  | .remove => false

/-- One fsnotify event. -/
structure RawEvent where
  name : String
  ops : List FsOp
deriving Repr, DecidableEq

/-- Event passes the operation mask. -/
def opQualifies (ops : List FsOp) : Bool := ops.any isReactOp

/-- Static configuration of one per-project watcher (the stability-check
constants of fireIfStable are 150 ms and 10 attempts in the source). -/
structure WatchCfg where
  projectName : String
  projectPath : String
  debounce : Nat
  interval : Nat
  attempts : Nat

/-- Mutable state of the watcher loop: the tracked session-file path with
its cached lowercase forms, and the pending debounce deadline. -/
structure WatchState where
  alsPath : String
  alsPathLC : String
  alsBaseLC : String
  deadline : Option Nat
deriving Repr, DecidableEq

/-- Initial loop state for a resolved session-file path. -/
def initWatchState (alsPath : String) : WatchState :=
  { alsPath := alsPath, alsPathLC := mkLC alsPath,
    alsBaseLC := lowerASCII (pathBase (mkLC alsPath)), deadline := none }

/-- Event branch of the WatchProjectALS select loop: react only to the
masked operations, only to top-level files of the project directory whose
base is a real session file, and only when the path or the base matches
the tracked file; a base-only match retargets the tracked path; every
qualifying event restarts the debounce timer. -/
def handleEvent (cfg : WatchCfg) (st : WatchState) (t : Nat) (ev : RawEvent) : WatchState :=
  if !opQualifies ev.ops then st
  else if pathDir (mkLC ev.name) ≠ mkLC cfg.projectPath then st
  else if !isRealALS (lowerASCII (pathBase (mkLC ev.name))) then st
  else if mkLC ev.name = st.alsPathLC ∨
      lowerASCII (pathBase (mkLC ev.name)) = st.alsBaseLC then
    if lowerASCII (pathBase (mkLC ev.name)) = st.alsBaseLC ∧
        mkLC ev.name ≠ st.alsPathLC then
      { alsPath := pathJoin cfg.projectPath (pathBase ev.name),
        alsPathLC := mkLC (pathJoin cfg.projectPath (pathBase ev.name)),
        alsBaseLC := lowerASCII (pathBase (mkLC (pathJoin cfg.projectPath (pathBase ev.name)))),
        deadline := some (t + cfg.debounce) }
    else { st with deadline := some (t + cfg.debounce) }
  else st

/-- One stat-plus-open observation of the tracked file during the
stability poll. -/
structure FilePoll where
  statOk : Bool
  size : Int
  mtimeNs : Int
  openOk : Bool
deriving Repr, DecidableEq

/-- Recursion of waitFileStable over the remaining attempts: a failed
stat or open sleeps and retries, matching size and mtime across two
consecutive good polls succeeds (returning the poll index, a proxy for
the elapsed sleep count), otherwise the observation is recorded and the
loop sleeps. -/
def waitFileStableAux (poll : Nat → FilePoll) :
    Nat → Nat → Int → Int → Option Nat
  | 0, _, _, _ => none
  | k + 1, i, lastSize, lastMod =>
    let fp := poll i
    if !fp.statOk then waitFileStableAux poll k (i + 1) lastSize lastMod
    else if !fp.openOk then waitFileStableAux poll k (i + 1) lastSize lastMod
    else if fp.size = lastSize ∧ fp.mtimeNs = lastMod then some i
    else waitFileStableAux poll k (i + 1) fp.size fp.mtimeNs

/-- waitFileStable of watcher.go: up to attempts polls, starting from the
sentinel size -1 and the zero time. -/
def waitFileStable (poll : Nat → FilePoll) (attempts : Nat) : Option Nat :=
  waitFileStableAux poll attempts 0 (-1) 0

/-- Environment of one timer fire: the result of the os.Stat on the
tracked path, the findTopLevelALS re-resolution used when that stat
fails, and the poll trace the stability check observes. -/
structure FireEnv where
  statOk : Bool
  reResolved : Option String
  polls : Nat → FilePoll

/-- fireIfStable of watcher.go at a fire time d: re-resolve the tracked
path if it vanished, then run the stability check; on success emit the
save event, whose DetectedAt is d plus the sleep time the check spent
(poll index times the poll interval). -/
def fireIfStable (cfg : WatchCfg) (st : WatchState) (env : FireEnv) (d : Nat) :
    WatchState × Option Nat :=
  let st1 :=
    if !env.statOk then
      match env.reResolved with
      | some newALS =>
        { st with alsPath := newALS, alsPathLC := mkLC newALS,
                  alsBaseLC := lowerASCII (pathBase (mkLC newALS)) }
      | none => st
    else st
  match waitFileStable env.polls cfg.attempts with
  | some k => (st1, some (d + k * cfg.interval))
  | none => (st1, none)

/-- Deterministic run of the WatchProjectALS loop over a time-stamped
event trace: a pending deadline that has passed fires before the next
event is handled, and a deadline still pending after the last event
fires in the quiescent epilogue.  Returns the final state and the
DetectedAt times of the emitted save events. -/
def watchRun (cfg : WatchCfg) (fireEnvAt : Nat → FireEnv) (st : WatchState) :
    List (Nat × RawEvent) → WatchState × List Nat
  | [] =>
    match st.deadline with
    | none => (st, [])
    | some d =>
      let fr := fireIfStable cfg { st with deadline := none } (fireEnvAt d) d
      (fr.1, fr.2.toList)
  | (t, ev) :: rest =>
    match st.deadline with
    | some d =>
      if d ≤ t then
        let fr := fireIfStable cfg { st with deadline := none } (fireEnvAt d) d
        let res := watchRun cfg fireEnvAt (handleEvent cfg fr.1 t ev) rest
        (res.1, fr.2.toList ++ res.2)
      else
        watchRun cfg fireEnvAt (handleEvent cfg st t ev) rest
    | none =>
      watchRun cfg fireEnvAt (handleEvent cfg st t ev) rest

/-! ## Order, sort and association-list lemmas -/

theorem goLtData_irrefl (l : List Char) : goLtData l l = false := by
  induction l with
  | nil => rfl
  | cons a as ih => simp [goLtData, ih]

theorem goLtData_asymm : ∀ {a b : List Char},
    goLtData a b = true → goLtData b a = false
  | [], [], h => by simp [goLtData] at h
  | [], _ :: _, _ => by simp [goLtData]
  | _ :: _, [], h => by simp [goLtData] at h
  | a :: as, b :: bs, h => by
    by_cases hab : a < b
    · simp [goLtData, not_lt_of_lt hab, ne_of_gt hab]
    · by_cases heq : a = b
      · subst heq
        simp only [goLtData, if_neg hab, if_pos rfl] at h
        simp [goLtData, hab, goLtData_asymm h]
      · simp [goLtData, hab, heq] at h

theorem goLtData_conn : ∀ {a b : List Char},
    goLtData a b = false → goLtData b a = false → a = b
  | [], [], _, _ => rfl
  | [], _ :: _, h, _ => by simp [goLtData] at h
  | _ :: _, [], _, h' => by simp [goLtData] at h'
  | a :: as, b :: bs, h, h' => by
    by_cases hab : a < b
    · simp [goLtData, hab] at h
    · by_cases hba : b < a
      · simp [goLtData, hba, ne_of_gt hba] at h'
      · have heq : a = b := le_antisymm (not_lt.mp hba) (not_lt.mp hab)
        subst heq
        simp only [goLtData, if_neg hab, if_pos rfl] at h h'
        exact congrArg (a :: ·) (goLtData_conn h h')

theorem goLtData_trans : ∀ {a b c : List Char},
    goLtData a b = true → goLtData b c = true → goLtData a c = true
  | [], [], _, h, _ => by simp [goLtData] at h
  | [], _ :: _, [], _, h' => by simp [goLtData] at h'
  | [], _ :: _, _ :: _, _, _ => by simp [goLtData]
  | _ :: _, [], _, h, _ => by simp [goLtData] at h
  | _ :: _, _ :: _, [], _, h' => by simp [goLtData] at h'
  | a :: as, b :: bs, c :: cs, h, h' => by
    by_cases hab : a < b
    · by_cases hbc : b < c
      · have : a < c := lt_trans hab hbc
        simp [goLtData, this]
      · by_cases hbceq : b = c
        · subst hbceq; simp [goLtData, hab]
        · simp [goLtData, hbc, hbceq] at h'
    · by_cases habeq : a = b
      · subst habeq
        simp only [goLtData, if_neg hab, if_pos rfl] at h
        by_cases hbc : a < c
        · simp [goLtData, hbc]
        · by_cases hbceq : a = c
          · subst hbceq
            simp only [goLtData, if_neg hbc, if_pos rfl] at h' ⊢
            exact goLtData_trans h h'
          · simp [goLtData, hbc, hbceq] at h'
      · simp [goLtData, hab, habeq] at h

theorem strLe_total (a b : String) : strLe a b = true ∨ strLe b a = true := by
  by_cases h : goLtData b.data a.data = true
  · right
    have := goLtData_asymm h
    simp [strLe, strLt, this]
  · left
    simp only [strLe, strLt]
    simp only [Bool.not_eq_true] at h
    simp [h]

theorem strLe_trans {a b c : String} (h1 : strLe a b = true) (h2 : strLe b c = true) :
    strLe a c = true := by
  simp only [strLe, strLt, Bool.not_eq_true'] at h1 h2 ⊢
  by_cases hbc : goLtData b.data c.data = true
  · by_cases hca : goLtData c.data a.data = true
    · have := goLtData_trans hbc hca
      simp [this] at h1
    · simpa using hca
  · simp only [Bool.not_eq_true] at hbc
    have hbceq : b.data = c.data := goLtData_conn hbc h2
    rw [← hbceq]
    exact h1

theorem strLe_strLt_of_ne {a b : String} (h : strLe a b = true) (hne : a ≠ b) :
    strLt a b = true := by
  simp only [strLe, strLt, Bool.not_eq_true'] at h ⊢
  by_cases hab : goLtData a.data b.data = true
  · exact hab
  · simp only [Bool.not_eq_true] at hab
    have hdata : a.data = b.data := goLtData_conn hab h
    have : a = b := by
      cases a
      cases b
      exact congrArg String.mk hdata
    exact absurd this hne

theorem insertBy_perm (le : α → α → Bool) (a : α) (l : List α) :
    List.Perm (insertBy le a l) (a :: l) := by
  induction l with
  | nil => simp [insertBy]
  | cons b bs ih =>
    by_cases h : le a b = true
    · simp [insertBy, h]
    · rw [insertBy, if_neg h]
      exact (List.Perm.cons b ih).trans (List.Perm.swap a b bs)

theorem sortBy_perm (le : α → α → Bool) (l : List α) :
    List.Perm (sortBy le l) l := by
  induction l with
  | nil => simp [sortBy]
  | cons a as ih =>
    exact (insertBy_perm le a (sortBy le as)).trans (List.Perm.cons a ih)

theorem mem_sortBy (le : α → α → Bool) (l : List α) (x : α) :
    x ∈ sortBy le l ↔ x ∈ l :=
  (sortBy_perm le l).mem_iff

theorem insertBy_pairwise (le : α → α → Bool)
    (htot : ∀ a b, le a b = true ∨ le b a = true)
    (htr : ∀ a b c, le a b = true → le b c = true → le a c = true)
    (a : α) (l : List α) (h : List.Pairwise (fun x y => le x y = true) l) :
    List.Pairwise (fun x y => le x y = true) (insertBy le a l) := by
  induction l with
  | nil => simp [insertBy]
  | cons b bs ih =>
    rw [List.pairwise_cons] at h
    obtain ⟨hb, hbs⟩ := h
    by_cases hab : le a b = true
    · rw [insertBy, if_pos hab, List.pairwise_cons]
      refine ⟨?_, List.pairwise_cons.mpr ⟨hb, hbs⟩⟩
      intro x hx
      rcases List.mem_cons.mp hx with rfl | hx2
      · exact hab
      · exact htr a b x hab (hb x hx2)
    · rw [insertBy, if_neg hab, List.pairwise_cons]
      refine ⟨?_, ih hbs⟩
      intro x hx
      rcases List.mem_cons.mp ((insertBy_perm le a bs).mem_iff.mp hx) with heq | hx2
      · subst heq
        exact (htot _ _).resolve_left hab
      · exact hb x hx2

theorem sortBy_pairwise (le : α → α → Bool)
    (htot : ∀ a b, le a b = true ∨ le b a = true)
    (htr : ∀ a b c, le a b = true → le b c = true → le a c = true)
    (l : List α) :
    List.Pairwise (fun x y => le x y = true) (sortBy le l) := by
  induction l with
  | nil => simp [sortBy]
  | cons a as ih => exact insertBy_pairwise le htot htr a (sortBy le as) ih

theorem lookup_setKey_self (k : String) (v : α) (l : List (String × α)) :
    (setKey k v l).lookup k = some v := by
  induction l with
  | nil => simp [setKey, List.lookup]
  | cons kv rest ih =>
    by_cases h : kv.1 = k
    · simp [setKey, h, List.lookup]
    · have hbeq : (k == kv.1) = false := by
        simp [BEq.beq]
        exact fun he => h he.symm
      simp only [setKey]
      rw [if_neg (by exact h)]
      simpa [List.lookup, hbeq] using ih

theorem setKey_idem (k : String) (v : α) (l : List (String × α)) :
    setKey k v (setKey k v l) = setKey k v l := by
  induction l with
  | nil => simp [setKey]
  | cons kv rest ih =>
    by_cases h : kv.1 = k
    · simp [setKey, h]
    · simp [setKey, h, ih]

theorem lookup_isSome_iff_mem_keys (k : String) (l : List (String × α)) :
    (l.lookup k).isSome = true ↔ k ∈ keysOf l := by
  induction l with
  | nil => simp [List.lookup, keysOf]
  | cons kv rest ih =>
    by_cases h : k = kv.1
    · simp [List.lookup, keysOf, h]
    · have hbeq : (k == kv.1) = false := by simpa using h
      simp [List.lookup, keysOf, hbeq, h, ih]

theorem lookup_eq_none_iff (k : String) (l : List (String × α)) :
    l.lookup k = none ↔ k ∉ keysOf l := by
  rw [← lookup_isSome_iff_mem_keys]
  cases h : l.lookup k <;> simp [h]

theorem setKey_of_not_mem (k : String) (v : α) (l : List (String × α))
    (h : k ∉ keysOf l) : setKey k v l = l ++ [(k, v)] := by
  induction l with
  | nil => simp [setKey]
  | cons kv rest ih =>
    simp only [keysOf, List.map_cons, List.mem_cons] at h
    push_neg at h
    rw [setKey, if_neg (fun he : kv.1 = k => h.1 he.symm), ih (by simpa [keysOf] using h.2)]
    rfl

theorem filter_key_nil (k : String) (l : List (String × α))
    (h : k ∉ keysOf l) : l.filter (fun kv => kv.1 = k) = [] := by
  induction l with
  | nil => rfl
  | cons kv rest ih =>
    simp only [keysOf, List.map_cons, List.mem_cons] at h
    push_neg at h
    simp only [List.filter_cons]
    rw [if_neg (by simpa using fun he => h.1 he.symm)]
    exact ih h.2

/-! ## Claim C6: LoadLocalCache failure behaviour -/

/-- Claim C6, counterexample: LoadLocalCache does return an error — a
read failure other than ENOENT (for example a permission error) is
surfaced rather than swallowed, refuting the sentence that the load
never fails hard. -/
theorem LoadLocalCache_error_cx :
    LoadLocalCache (Except.error ReadErr.other) (fun _ => none) =
      Except.error "read local cache" := rfl

/-- Claim C6 as amended: a missing cache.json yields the empty cache with
default algo sha256, corrupt JSON archives the corrupt bytes and yields
the empty cache, and an error escapes exactly when the file read fails
with something other than ENOENT. -/
theorem LoadLocalCache_fails_open (decode : String → Option RawCache) :
    LoadLocalCache (Except.error ReadErr.notExist) decode =
        Except.ok { cache := emptyCache, preservedCorrupt := false }
      ∧ (∀ bytes, decode bytes = none →
          LoadLocalCache (Except.ok bytes) decode =
            Except.ok { cache := emptyCache, preservedCorrupt := true })
      ∧ (∀ readResult, (∃ e, LoadLocalCache readResult decode = Except.error e) ↔
          readResult = Except.error ReadErr.other) := by
  refine ⟨rfl, ?_, ?_⟩
  · intro bytes h
    simp [LoadLocalCache, h]
  · intro readResult
    constructor
    · rintro ⟨e, he⟩
      match readResult with
      | .error .notExist => simp [LoadLocalCache] at he
      | .error .other => rfl
      | .ok bytes =>
        rcases hd : decode bytes with _ | raw <;> simp [LoadLocalCache, hd] at he
    · rintro rfl
      exact ⟨"read local cache", rfl⟩

/-- Witness for the amended C6 theorem at concrete inputs. -/
theorem LoadLocalCache_fails_open_witness :
    LoadLocalCache (Except.ok "NOT JSON") (fun _ => none) =
      Except.ok { cache := emptyCache, preservedCorrupt := true } :=
  (LoadLocalCache_fails_open (fun _ => none)).2.1 "NOT JSON" rfl

/-! ## Claim C10: pulled downloads get epoch mtime -/

/-- Claim C10: when the PullProject worker downloads a file (missing,
non-regular or failing verification locally) and the post-download
verification succeeds, the file's modification time is set to Unix time
0 — not the commit timestamp and not the download time, which the model
threads through as now — while a file that verified in place is returned
untouched, keeping its mtime. -/
theorem pullEnsureFile_mtime (keyPfx projectName : String)
    (blobs : String → Option RemoteObj) (algo : String) (rf : FileEntry)
    (lf : Option LocalFile) (now : Int) (r : LocalFile) (b : Bool)
    (h : pullEnsureFile keyPfx projectName blobs algo rf lf now = .ok (r, b)) :
    (b = true → r.mtime = 0 ∧ r.atime = now) ∧ (b = false → lf = some r) := by
  have hdl : ∀ (q : LocalFile) (c : Bool),
      downloadAndVerify keyPfx projectName blobs algo rf now = .ok (q, c) →
      q.mtime = 0 ∧ q.atime = now ∧ c = true := by
    intro q c hq
    unfold downloadAndVerify at hq
    dsimp only at hq
    split at hq
    · cases hq
    · split at hq
      · cases hq
      · split at hq
        · cases hq
        · simp only [Except.ok.injEq, Prod.mk.injEq] at hq
          obtain ⟨h1, h2⟩ := hq
          subst h1
          subst h2
          exact ⟨rfl, rfl, rfl⟩
  match lf with
  | none =>
    simp only [pullEnsureFile] at h
    rcases hdl r b h with ⟨h1, h2, h3⟩
    subst h3
    exact ⟨fun _ => ⟨h1, h2⟩, by simp⟩
  | some f =>
    simp only [pullEnsureFile] at h
    split at h
    · rcases hdl r b h with ⟨h1, h2, h3⟩
      subst h3
      exact ⟨fun _ => ⟨h1, h2⟩, by simp⟩
    · split at h
      · rcases hdl r b h with ⟨h1, h2, h3⟩
        subst h3
        exact ⟨fun _ => ⟨h1, h2⟩, by simp⟩
      · simp only [Except.ok.injEq, Prod.mk.injEq] at h
        obtain ⟨h1, h2⟩ := h
        subst h1
        subst h2
        exact ⟨by simp, fun _ => rfl⟩
      · rcases hdl r b h with ⟨h1, h2, h3⟩
        subst h3
        exact ⟨fun _ => ⟨h1, h2⟩, by simp⟩

/-- Witness for C10 at concrete inputs: a missing local file is
downloaded and ends with epoch mtime; a verifying local file keeps its
recorded mtime. -/
theorem pullEnsureFile_mtime_witness :
    (({ regular := true, sha256 := "h1", blake3 := "b1", mtime := 0, atime := 42 } :
        LocalFile).mtime = 0 ∧
      ({ regular := true, sha256 := "h1", blake3 := "b1", mtime := 0, atime := 42 } :
        LocalFile).atime = 42)
    ∧ (some { regular := true, sha256 := "h1", blake3 := "x", mtime := 123, atime := 5 } =
        some ({ regular := true, sha256 := "h1", blake3 := "x", mtime := 123, atime := 5 } :
          LocalFile)) := by
  constructor
  · exact (pullEnsureFile_mtime "" "proj"
      (fun k => if k = "proj/blobs/h1" then some { sha256 := "h1", blake3 := "b1" } else none)
      "" { path := "a.wav", hash := "h1", size := 3, modified := 1, r2Key := "" }
      none 42
      { regular := true, sha256 := "h1", blake3 := "b1", mtime := 0, atime := 42 }
      true rfl).1 rfl
  · exact (pullEnsureFile_mtime "" "proj" (fun _ => none)
      "" { path := "a.wav", hash := "h1", size := 3, modified := 1, r2Key := "" }
      (some { regular := true, sha256 := "h1", blake3 := "x", mtime := 123, atime := 5 }) 42
      { regular := true, sha256 := "h1", blake3 := "x", mtime := 123, atime := 5 }
      false rfl).2 rfl

/-! ## Claim C8: UploadIfMissing idempotence -/

theorem UploadIfMissingN_exists (lc : Option String) (key : String) :
    ∀ (n : Nat) (s : S3State), s3Exists s key = true →
      UploadIfMissingN lc key n s = { s3 := s, allOk := true, puts := 0 } := by
  intro n
  induction n with
  | zero => intro s _; rfl
  | succ m ih =>
    intro s h
    have ho : UploadIfMissing s lc key = { s3 := s, ok := true, performedPut := false } := by
      rw [UploadIfMissing, if_pos h]
    simp only [UploadIfMissingN, ho, ih s h]
    simp

/-- Claim C8: running UploadIfMissing N times (N at least 1) against a
bucket without the key succeeds every time, stores exactly one object at
the key holding the uploaded content, and issues exactly one PUT (the
412 precondition-failed answer of the conditional PUT is success); and
every call made when the object already exists returns success without
issuing any PUT. -/
theorem UploadIfMissing_idempotent (content key : String) (s : S3State) (n : Nat)
    (hn : 1 ≤ n) (habs : s3Exists s key = false) :
    ((UploadIfMissingN (some content) key n s).allOk = true
      ∧ ((UploadIfMissingN (some content) key n s).s3.objects.lookup key = some content)
      ∧ ((UploadIfMissingN (some content) key n s).s3.objects.filter
            (fun kv => kv.1 = key)).length = 1
      ∧ (UploadIfMissingN (some content) key n s).puts = 1)
    ∧ (∀ (s' : S3State) (lc : Option String), s3Exists s' key = true →
        UploadIfMissing s' lc key = { s3 := s', ok := true, performedPut := false }) := by
  constructor
  · obtain ⟨m, rfl⟩ : ∃ m, n = m + 1 := ⟨n - 1, (Nat.succ_pred_eq_of_pos hn).symm⟩
    have hkey : key ∉ keysOf s.objects := by
      rw [← lookup_eq_none_iff]
      simpa [s3Exists, Option.isSome_iff_exists] using habs
    have ho : UploadIfMissing s (some content) key =
        { s3 := { objects := setKey key content s.objects }, ok := true,
          performedPut := true } := by
      simp [UploadIfMissing, UploadFileIfNoneMatch, putIfNoneMatchStar, habs]
    have hex1 : s3Exists { objects := setKey key content s.objects } key = true := by
      simp [s3Exists, lookup_setKey_self]
    simp only [UploadIfMissingN, ho, UploadIfMissingN_exists (some content) key m _ hex1]
    refine ⟨rfl, lookup_setKey_self key content s.objects, ?_, rfl⟩
    rw [setKey_of_not_mem key content s.objects hkey, List.filter_append,
        filter_key_nil key s.objects hkey]
    simp
  · intro s' lc h
    rw [UploadIfMissing, if_pos h]

/-- Witness for C8 at a concrete bucket: three runs leave one object and
one PUT, and a call on the existing object performs no PUT. -/
theorem UploadIfMissing_idempotent_witness :
    (UploadIfMissingN (some "body") "k" 3 { objects := [] }).allOk = true
    ∧ (UploadIfMissingN (some "body") "k" 3 { objects := [] }).s3.objects.lookup "k" =
        some "body"
    ∧ ((UploadIfMissingN (some "body") "k" 3 { objects := [] }).s3.objects.filter
          (fun kv => kv.1 = "k")).length = 1
    ∧ (UploadIfMissingN (some "body") "k" 3 { objects := [] }).puts = 1
    ∧ UploadIfMissing { objects := [("k", "body")] } none "k" =
        { s3 := { objects := [("k", "body")] }, ok := true, performedPut := false } := by
  have H := UploadIfMissing_idempotent "body" "k" { objects := [] } 3
    (by decide) (by decide)
  exact ⟨H.1.1, H.1.2.1, H.1.2.2.1, H.1.2.2.2, H.2 { objects := [("k", "body")] } none
    (by decide)⟩

/-! ## Claims C2 and C3: FinalizeCommit postcondition and re-run -/

theorem FinalizeCommit_eq_ok (name : String) (c : CommitMeta) (s : ProjectState)
    (verify : String → Bool) (now : Int) (r r' : Repo)
    (h : FinalizeCommit name c s verify now r = .ok r') :
    r' = { doc := some { name := name, lastCommitId := c.id,
                         lastCommitAt := if c.timestamp = 0 then now else c.timestamp,
                         last5 := trimLast5 ((r.doc.getD (emptyDoc name)).last5 ++ [c.id]) },
           commits := setKey c.id
             { c with status := "final",
                      timestamp := if c.timestamp = 0 then now else c.timestamp } r.commits,
           states := setKey c.id s r.states } := by
  unfold FinalizeCommit at h
  split at h
  · dsimp only at h
    have he := Except.ok.inj h
    subst he
    by_cases hts : c.timestamp = 0 <;> simp [hts]
  · cases h

/-- Claim C2, counterexample: a successful FinalizeCommit of a commit
whose timestamp field is zero stamps the current time, so the project
doc's lastCommitAt is the stamped transaction time (here 5), not the
input commit's timestamp 0 — refuting the lastCommitAt = c.timestamp
conjunct of the claim as universally stated. -/
theorem FinalizeCommit_timestamp_cx :
    (FinalizeCommit "p"
        { id := "c1", message := "m", timestamp := 0, userId := "", parentId := "",
          status := "" }
        { projectName := "p", projectPath := "", files := [], createdAt := 0, algo := "" }
        (fun _ => true) 5 { doc := none, commits := [], states := [] }).map
      (fun r => r.doc.map ProjectDoc.lastCommitAt) = Except.ok (some 5)
    ∧ (5 : Int) ≠ 0 := by
  exact ⟨rfl, by decide⟩

/-- Claim C2 as amended: after a successful FinalizeCommit of a commit
with a nonempty id and a nonzero timestamp, GetLatestState returns
exactly the finalized pair (s, c with status final), and the project doc
holds lastCommitId = c.id, lastCommitAt = c.timestamp, and last5 equal
to the previous last5 with c.id appended and trimmed to the most recent
five (when c.timestamp = 0 the code stamps the transaction time instead,
and an empty c.id makes GetLatestState report no state at all). -/
theorem FinalizeCommit_head_advance (name : String) (c : CommitMeta) (s : ProjectState)
    (verify : String → Bool) (now : Int) (r r' : Repo)
    (h : FinalizeCommit name c s verify now r = .ok r')
    (hid : c.id ≠ "") (hts : c.timestamp ≠ 0) :
    GetLatestState r' = .ok (some (s, { c with status := "final" }))
    ∧ r'.doc = some { name := name, lastCommitId := c.id, lastCommitAt := c.timestamp,
                      last5 := trimLast5 ((r.doc.getD (emptyDoc name)).last5 ++ [c.id]) } := by
  have he := FinalizeCommit_eq_ok name c s verify now r r' h
  subst he
  constructor
  · simp [GetLatestState, hid, hts, lookup_setKey_self]
  · simp [hts]

/-- Witness for the amended C2 theorem: finalizing commit c1 over an
empty project makes GetLatestState yield it as HEAD. -/
theorem FinalizeCommit_head_advance_witness :
    GetLatestState
        { doc := some { name := "p", lastCommitId := "c1", lastCommitAt := 3,
                        last5 := ["c1"] },
          commits := [("c1", { id := "c1", message := "m", timestamp := 3, userId := "",
                               parentId := "", status := "final" })],
          states := [("c1", { projectName := "p", projectPath := "", files := [],
                              createdAt := 0, algo := "" })] } =
      Except.ok (some
        ({ projectName := "p", projectPath := "", files := [], createdAt := 0, algo := "" },
         { id := "c1", message := "m", timestamp := 3, userId := "", parentId := "",
           status := "final" }))
    ∧ (some { name := "p", lastCommitId := "c1", lastCommitAt := 3,
              last5 := ["c1"] } : Option ProjectDoc) =
        some { name := "p", lastCommitId := "c1", lastCommitAt := 3, last5 := ["c1"] } := by
  have H := FinalizeCommit_head_advance "p"
    { id := "c1", message := "m", timestamp := 3, userId := "", parentId := "", status := "" }
    { projectName := "p", projectPath := "", files := [], createdAt := 0, algo := "" }
    (fun _ => true) 9 { doc := none, commits := [], states := [] }
    { doc := some { name := "p", lastCommitId := "c1", lastCommitAt := 3, last5 := ["c1"] },
      commits := [("c1", { id := "c1", message := "m", timestamp := 3, userId := "",
                           parentId := "", status := "final" })],
      states := [("c1", { projectName := "p", projectPath := "", files := [],
                          createdAt := 0, algo := "" })] }
    rfl (by decide) (by decide)
  exact ⟨H.1, rfl⟩

/-- Claim C3, counterexample: re-running FinalizeCommit with the same
(commit, state) succeeds but appends the commit id to last5 a second
time — after the first run last5 is [c1], after the second it is
[c1, c1] — so the project metadata is not the same as after the first
run. -/
theorem FinalizeCommit_not_idempotent_cx :
    (FinalizeCommit "p"
        { id := "c1", message := "m", timestamp := 3, userId := "", parentId := "",
          status := "" }
        { projectName := "p", projectPath := "", files := [], createdAt := 0, algo := "" }
        (fun _ => true) 9 { doc := none, commits := [], states := [] }).map
      (fun r => r.doc.map ProjectDoc.last5) = Except.ok (some ["c1"])
    ∧ ((FinalizeCommit "p"
          { id := "c1", message := "m", timestamp := 3, userId := "", parentId := "",
            status := "" }
          { projectName := "p", projectPath := "", files := [], createdAt := 0, algo := "" }
          (fun _ => true) 9 { doc := none, commits := [], states := [] }).bind
        (fun r1 => FinalizeCommit "p"
          { id := "c1", message := "m", timestamp := 3, userId := "", parentId := "",
            status := "" }
          { projectName := "p", projectPath := "", files := [], createdAt := 0, algo := "" }
          (fun _ => true) 9 r1)).map
      (fun r => r.doc.map ProjectDoc.last5) = Except.ok (some ["c1", "c1"])
    ∧ (["c1", "c1"] ≠ ["c1"]) := by
  refine ⟨rfl, rfl, by decide⟩

/-- Claim C3 as amended: re-running FinalizeCommit with the same
(commit.id, state) after a successful run succeeds and completes the
same HEAD advance — lastCommitId and lastCommitAt unchanged, commit and
state documents unchanged — but appends commit.id to last5 once more
(trimmed to five), so last5 is not left the same as after the first
run. -/
theorem FinalizeCommit_rerun (name : String) (c : CommitMeta) (s : ProjectState)
    (verify verify2 : String → Bool) (now now2 : Int) (r r1 r2 : Repo)
    (h1 : FinalizeCommit name c s verify now r = .ok r1)
    (h2 : FinalizeCommit name c s verify2 now2 r1 = .ok r2)
    (hts : c.timestamp ≠ 0) :
    r2.doc.map ProjectDoc.lastCommitId = some c.id
    ∧ r1.doc.map ProjectDoc.lastCommitId = some c.id
    ∧ r2.doc.map ProjectDoc.lastCommitAt = some c.timestamp
    ∧ r1.doc.map ProjectDoc.lastCommitAt = some c.timestamp
    ∧ r2.commits = r1.commits
    ∧ r2.states = r1.states
    ∧ r2.doc.map ProjectDoc.last5 =
        some (trimLast5 ((r1.doc.getD (emptyDoc name)).last5 ++ [c.id])) := by
  have e1 := FinalizeCommit_eq_ok name c s verify now r r1 h1
  subst e1
  have e2 := FinalizeCommit_eq_ok name c s verify2 now2 _ r2 h2
  subst e2
  simp [hts, setKey_idem]

/-- Witness for the amended C3 theorem at the concrete double-run. -/
theorem FinalizeCommit_rerun_witness :
    ((({ doc := some { name := "p", lastCommitId := "c1", lastCommitAt := 3,
                       last5 := ["c1", "c1"] },
         commits := [("c1", { id := "c1", message := "m", timestamp := 3, userId := "",
                              parentId := "", status := "final" })],
         states := [("c1", { projectName := "p", projectPath := "", files := [],
                             createdAt := 0, algo := "" })] } : Repo)).commits =
      (({ doc := some { name := "p", lastCommitId := "c1", lastCommitAt := 3,
                        last5 := ["c1"] },
          commits := [("c1", { id := "c1", message := "m", timestamp := 3, userId := "",
                               parentId := "", status := "final" })],
          states := [("c1", { projectName := "p", projectPath := "", files := [],
                              createdAt := 0, algo := "" })] } : Repo)).commits) := by
  have H := FinalizeCommit_rerun "p"
    { id := "c1", message := "m", timestamp := 3, userId := "", parentId := "", status := "" }
    { projectName := "p", projectPath := "", files := [], createdAt := 0, algo := "" }
    (fun _ => true) (fun _ => true) 9 9
    { doc := none, commits := [], states := [] }
    { doc := some { name := "p", lastCommitId := "c1", lastCommitAt := 3, last5 := ["c1"] },
      commits := [("c1", { id := "c1", message := "m", timestamp := 3, userId := "",
                           parentId := "", status := "final" })],
      states := [("c1", { projectName := "p", projectPath := "", files := [],
                          createdAt := 0, algo := "" })] }
    { doc := some { name := "p", lastCommitId := "c1", lastCommitAt := 3,
                    last5 := ["c1", "c1"] },
      commits := [("c1", { id := "c1", message := "m", timestamp := 3, userId := "",
                           parentId := "", status := "final" })],
      states := [("c1", { projectName := "p", projectPath := "", files := [],
                          createdAt := 0, algo := "" })] }
    rfl rfl (by decide)
  exact H.2.2.2.2.1

/-! ## Claim C1: how PushProject records the commit -/

/-- Claim C1, counterexample: a concrete successful push (empty remote,
one file, blob uploaded) whose metadata phase invokes only
UpsertLatestState — no BeginCommit and no FinalizeCommit ever run, the
recorded commit's status is the empty string (never pending, never
final), and HEAD has advanced to the commit although FinalizeCommit
never completed, refuting the two-phase protocol the claim states for
every push. -/
theorem PushProject_two_phase_cx :
    (PushProject "" "proj" "/r/proj"
        (fun p => if p = "/r/proj/a.wav" then some "body" else none)
        { projectName := "", projectPath := "",
          files := [{ path := "a.wav", hash := "h1", size := 3, modified := 1, r2Key := "" }],
          createdAt := 7, algo := "" }
        { id := "c1", message := "m", timestamp := 3, userId := "", parentId := "",
          status := "" }
        { repo := { doc := none, commits := [], states := [] },
          s3 := { objects := [] }, calls := [] }).map (fun w => w.calls) =
      Except.ok ["UpsertLatestState"]
    ∧ (PushProject "" "proj" "/r/proj"
        (fun p => if p = "/r/proj/a.wav" then some "body" else none)
        { projectName := "", projectPath := "",
          files := [{ path := "a.wav", hash := "h1", size := 3, modified := 1, r2Key := "" }],
          createdAt := 7, algo := "" }
        { id := "c1", message := "m", timestamp := 3, userId := "", parentId := "",
          status := "" }
        { repo := { doc := none, commits := [], states := [] },
          s3 := { objects := [] }, calls := [] }).map
        (fun w => w.repo.doc.map ProjectDoc.lastCommitId) = Except.ok (some "c1")
    ∧ (PushProject "" "proj" "/r/proj"
        (fun p => if p = "/r/proj/a.wav" then some "body" else none)
        { projectName := "", projectPath := "",
          files := [{ path := "a.wav", hash := "h1", size := 3, modified := 1, r2Key := "" }],
          createdAt := 7, algo := "" }
        { id := "c1", message := "m", timestamp := 3, userId := "", parentId := "",
          status := "" }
        { repo := { doc := none, commits := [], states := [] },
          s3 := { objects := [] }, calls := [] }).map
        (fun w => (w.repo.commits.lookup "c1").map CommitMeta.status) =
      Except.ok (some "")
    ∧ ("UpsertLatestState" : String) ≠ "BeginCommit"
    ∧ ("UpsertLatestState" : String) ≠ "FinalizeCommit" := by
  exact ⟨rfl, rfl, rfl, by decide, by decide⟩

/-- Claim C1 as amended: every successful PushProject records the commit
in a single phase, through exactly one UpsertLatestState call — a header
merge that advances HEAD, then the commit doc (status untouched) and the
state doc, with no blob verification — while the two-phase
BeginCommit-then-FinalizeCommit protocol (with
verify(hash) = Exists(BuildKey(projectName, hash))) is implemented by
the MetaStore and exercised by the selftest smoke push, whose metadata
phase logs exactly those two calls. -/
theorem PushProject_one_phase
    (keyPfx projectName projectPath : String) (localContent : String → Option String)
    (cur0 : ProjectState) (commit : CommitMeta) (w w' : PushWorld)
    (hp : PushProject keyPfx projectName projectPath localContent cur0 commit w = .ok w')
    (keyPfx2 projectName2 projectPath2 : String)
    (localContent2 : String → Option String) (st0 : ProjectState) (cm : CommitMeta)
    (now : Int) (w2 w2' : PushWorld)
    (hs : smokePushMeta keyPfx2 projectName2 projectPath2 localContent2 st0 cm now w2 =
      .ok w2') :
    (∃ files', w'.calls = w.calls ++ ["UpsertLatestState"]
      ∧ w'.repo = UpsertLatestState projectName
          { projectName := projectName, projectPath := projectPath, files := files',
            createdAt := cur0.createdAt, algo := cur0.algo } commit w.repo)
    ∧ w2'.calls = w2.calls ++ ["BeginCommit", "FinalizeCommit"] := by
  constructor
  · unfold PushProject at hp
    split at hp
    · cases hp
    · have he := Except.ok.inj hp
      subst he
      exact ⟨_, rfl, rfl⟩
  · unfold smokePushMeta at hs
    split at hs
    · cases hs
    · unfold finalizeCommitW at hs
      split at hs
      · cases hs
      · have he := Except.ok.inj hs
        subst he
        simp [beginCommitW]

/-- Witness for the amended C1 theorem at the concrete push and smoke
runs of the counterexample inputs. -/
theorem PushProject_one_phase_witness :
    ∃ files',
      (({ repo := { doc := some { name := "proj", lastCommitId := "c1", lastCommitAt := 3,
                                  last5 := [] },
                    commits := [("c1", { id := "c1", message := "m", timestamp := 3,
                                         userId := "", parentId := "", status := "" })],
                    states := [("c1", { projectName := "proj", projectPath := "/r/proj",
                                        files := [{ path := "a.wav", hash := "h1", size := 3,
                                                    modified := 1,
                                                    r2Key := "proj/blobs/h1" }],
                                        createdAt := 7, algo := "" })] },
          s3 := { objects := [("proj/blobs/h1", "body")] },
          calls := ["UpsertLatestState"] } : PushWorld)).calls =
        ([] : List String) ++ ["UpsertLatestState"]
      ∧ (({ repo := { doc := some { name := "proj", lastCommitId := "c1", lastCommitAt := 3,
                                    last5 := [] },
                      commits := [("c1", { id := "c1", message := "m", timestamp := 3,
                                           userId := "", parentId := "", status := "" })],
                      states := [("c1", { projectName := "proj", projectPath := "/r/proj",
                                          files := [{ path := "a.wav", hash := "h1",
                                                      size := 3, modified := 1,
                                                      r2Key := "proj/blobs/h1" }],
                                          createdAt := 7, algo := "" })] },
            s3 := { objects := [("proj/blobs/h1", "body")] },
            calls := ["UpsertLatestState"] } : PushWorld)).repo =
          UpsertLatestState "proj"
            { projectName := "proj", projectPath := "/r/proj", files := files',
              createdAt := 7, algo := "" }
            { id := "c1", message := "m", timestamp := 3, userId := "", parentId := "",
              status := "" }
            { doc := none, commits := [], states := [] } := by
  have H := PushProject_one_phase "" "proj" "/r/proj"
    (fun p => if p = "/r/proj/a.wav" then some "body" else none)
    { projectName := "", projectPath := "",
      files := [{ path := "a.wav", hash := "h1", size := 3, modified := 1, r2Key := "" }],
      createdAt := 7, algo := "" }
    { id := "c1", message := "m", timestamp := 3, userId := "", parentId := "", status := "" }
    { repo := { doc := none, commits := [], states := [] }, s3 := { objects := [] },
      calls := [] }
    { repo := { doc := some { name := "proj", lastCommitId := "c1", lastCommitAt := 3,
                              last5 := [] },
                commits := [("c1", { id := "c1", message := "m", timestamp := 3,
                                     userId := "", parentId := "", status := "" })],
                states := [("c1", { projectName := "proj", projectPath := "/r/proj",
                                    files := [{ path := "a.wav", hash := "h1", size := 3,
                                                modified := 1, r2Key := "proj/blobs/h1" }],
                                    createdAt := 7, algo := "" })] },
      s3 := { objects := [("proj/blobs/h1", "body")] },
      calls := ["UpsertLatestState"] }
    rfl
    "" "proj" "/r/proj"
    (fun p => if p = "/r/proj/a.wav" then some "body" else none)
    { projectName := "", projectPath := "",
      files := [{ path := "a.wav", hash := "h1", size := 3, modified := 1, r2Key := "" }],
      createdAt := 7, algo := "" }
    { id := "c1", message := "m", timestamp := 3, userId := "", parentId := "", status := "" }
    11
    { repo := { doc := none, commits := [], states := [] }, s3 := { objects := [] },
      calls := [] }
    { repo := { doc := some { name := "proj", lastCommitId := "c1", lastCommitAt := 3,
                              last5 := ["c1"] },
                commits := [("c1", { id := "c1", message := "m", timestamp := 3,
                                     userId := "", parentId := "", status := "final" })],
                states := [("c1", { projectName := "", projectPath := "",
                                    files := [{ path := "a.wav", hash := "h1", size := 3,
                                                modified := 1, r2Key := "proj/blobs/h1" }],
                                    createdAt := 7, algo := "" })] },
      s3 := { objects := [("proj/blobs/h1", "body")] },
      calls := ["BeginCommit", "FinalizeCommit"] }
    rfl
  exact H.1

/-! ## Claim C5: DiffManifests classification -/

theorem normalizeKey_id (p : String) : normalizeKey p = p := rfl

theorem lookup_mem {l : List (String × String)} {p v : String}
    (h : l.lookup p = some v) : (p, v) ∈ l := by
  induction l with
  | nil => cases h
  | cons kv rest ih =>
    obtain ⟨k, b⟩ := kv
    by_cases hp : p = k
    · subst hp
      have : (p == p) = true := by simp
      rw [List.lookup, this] at h
      have := Option.some.inj h
      subst this
      exact List.mem_cons_self _ _
    · have hbeq : (p == k) = false := by simpa using hp
      rw [List.lookup, hbeq] at h
      exact List.mem_cons_of_mem _ (ih h)

theorem mem_iff_lookup_of_nodup {l : List (String × String)}
    (h : (keysOf l).Nodup) (p v : String) : (p, v) ∈ l ↔ l.lookup p = some v := by
  induction l with
  | nil => simp [List.lookup]
  | cons kv rest ih =>
    obtain ⟨k, b⟩ := kv
    rw [keysOf, List.map_cons, List.nodup_cons] at h
    obtain ⟨hk, hrest⟩ := h
    by_cases hp : p = k
    · subst hp
      have hbeq : (p == p) = true := by simp
      rw [List.lookup, hbeq]
      constructor
      · intro hm
        rcases List.mem_cons.mp hm with heq | hm2
        · simp only [Prod.mk.injEq] at heq
          rw [heq.2]
        · exact absurd (List.mem_map.mpr ⟨(p, v), hm2, rfl⟩) hk
      · intro hl
        have : v = b := (Option.some.inj hl).symm
        subst this
        exact List.mem_cons_self _ _
    · have hbeq : (p == k) = false := by simpa using hp
      rw [List.lookup, hbeq, ← ih hrest]
      constructor
      · intro hm
        rcases List.mem_cons.mp hm with heq | hm2
        · simp only [Prod.mk.injEq] at heq
          exact absurd heq.1 hp
        · exact hm2
      · intro hm2
        exact List.mem_cons_of_mem _ hm2

theorem contains_false_iff (l : List String) (a : String) :
    l.contains a = false ↔ a ∉ l := by
  constructor
  · intro h hmem
    have h2 : l.contains a = true := List.elem_iff.mpr hmem
    rw [h] at h2
    cases h2
  · intro h
    cases hc : l.contains a
    · rfl
    · exact absurd (List.elem_iff.mp hc) h

theorem diffFirstPassF_path (cached : List (String × String)) (pv : String × String)
    (ch : FileChange) (h : diffFirstPassF cached pv = some ch) : ch.path = pv.1 := by
  unfold diffFirstPassF at h
  rcases hl : cached.lookup (normalizeKey pv.1) with _ | c0 <;> simp only [hl] at h
  · exact (congrArg FileChange.path (Option.some.inj h)).symm
  · by_cases hc0 : c0 ≠ pv.2
    · rw [if_pos hc0] at h
      exact (congrArg FileChange.path (Option.some.inj h)).symm
    · rw [if_neg hc0] at h
      cases h

theorem diffDeletedF_some (seen : List String) (pv : String × String) (ch : FileChange)
    (h : diffDeletedF seen pv = some ch) :
    ch = { path := pv.1, type := "deleted" } ∧ seen.contains pv.1 = false := by
  unfold diffDeletedF at h
  by_cases hs : seen.contains pv.1 = true
  · rw [if_pos hs] at h
    cases h
  · rw [if_neg hs] at h
    exact ⟨(Option.some.inj h).symm, by simpa using hs⟩

theorem diffFirstPassF_eq_added (cached : List (String × String)) (pv : String × String)
    (p : String) :
    diffFirstPassF cached pv = some { path := p, type := "added" } ↔
      pv.1 = p ∧ cached.lookup p = none := by
  unfold diffFirstPassF
  rcases hl : cached.lookup (normalizeKey pv.1) with _ | c0 <;> simp only [hl]
  · constructor
    · intro h
      have hp : pv.1 = p := by
        have := congrArg FileChange.path (Option.some.inj h)
        exact this
      refine ⟨hp, ?_⟩
      rw [normalizeKey_id] at hl
      rw [← hp]
      exact hl
    · rintro ⟨hp, _⟩
      rw [show ({ path := normalizeKey pv.1, type := "added" } : FileChange) =
        { path := p, type := "added" } from by rw [normalizeKey_id, hp]]
  · constructor
    · intro h
      by_cases hc0 : c0 ≠ pv.2
      · rw [if_pos hc0] at h
        have := congrArg FileChange.type (Option.some.inj h)
        simp at this
      · rw [if_neg hc0] at h
        cases h
    · rintro ⟨hp, hnone⟩
      rw [normalizeKey_id, hp, hnone] at hl
      cases hl

theorem diffFirstPassF_eq_modified (cached : List (String × String)) (pv : String × String)
    (p : String) :
    diffFirstPassF cached pv = some { path := p, type := "modified" } ↔
      pv.1 = p ∧ ∃ c0, cached.lookup p = some c0 ∧ c0 ≠ pv.2 := by
  unfold diffFirstPassF
  rcases hl : cached.lookup (normalizeKey pv.1) with _ | c0 <;> simp only [hl]
  · constructor
    · intro h
      have := congrArg FileChange.type (Option.some.inj h)
      simp at this
    · rintro ⟨hp, c0, hc0, _⟩
      rw [normalizeKey_id, hp, hc0] at hl
      cases hl
  · rw [normalizeKey_id] at hl
    constructor
    · intro h
      by_cases hc : c0 ≠ pv.2
      · rw [if_pos hc] at h
        have hp : pv.1 = p := by
          have := congrArg FileChange.path (Option.some.inj h)
          exact this
        refine ⟨hp, c0, ?_, hc⟩
        rw [← hp]
        exact hl
      · rw [if_neg hc] at h
        cases h
    · rintro ⟨hp, c1, hc1, hne⟩
      rw [← hp] at hc1
      rw [hl] at hc1
      have : c0 = c1 := Option.some.inj hc1
      subst this
      rw [if_pos hne]
      rw [show ({ path := normalizeKey pv.1, type := "modified" } : FileChange) =
        { path := p, type := "modified" } from by rw [normalizeKey_id, hp]]

theorem map_path_filterMap_sublist (f : String × String → Option FileChange)
    (hf : ∀ pv ch, f pv = some ch → ch.path = pv.1) (l : List (String × String)) :
    ((l.filterMap f).map FileChange.path).Sublist (keysOf l) := by
  induction l with
  | nil => simp [keysOf]
  | cons pv rest ih =>
    rcases hfv : f pv with _ | ch
    · rw [List.filterMap_cons_none hfv, keysOf, List.map_cons]
      exact ih.cons pv.1
    · rw [List.filterMap_cons_some hfv, keysOf, List.map_cons, List.map_cons,
          hf pv ch hfv]
      exact ih.cons₂ pv.1

/-- Claim C5: DiffManifests computes exactly added, modified and deleted
as set differences of the two manifests, classifies every key of the
union at most once and every differing key exactly once (the three
characterizations are disjoint because the result paths are pairwise
distinct and each carries one type), and returns the changes sorted
strictly ascending by path.  The function is pure: its embedding is a
function of the two manifests alone. -/
theorem DiffManifests_spec (current cached : List (String × String))
    (hc : (keysOf current).Nodup) (hb : (keysOf cached).Nodup) :
    (∀ p, ({ path := p, type := "added" } : FileChange) ∈ DiffManifests current cached ↔
        p ∈ keysOf current ∧ p ∉ keysOf cached)
    ∧ (∀ p, ({ path := p, type := "modified" } : FileChange) ∈ DiffManifests current cached ↔
        ∃ h1 h2, current.lookup p = some h1 ∧ cached.lookup p = some h2 ∧ h2 ≠ h1)
    ∧ (∀ p, ({ path := p, type := "deleted" } : FileChange) ∈ DiffManifests current cached ↔
        p ∈ keysOf cached ∧ p ∉ keysOf current)
    ∧ ((DiffManifests current cached).map FileChange.path).Nodup
    ∧ List.Pairwise (fun a b : FileChange => strLt a.path b.path = true)
        (DiffManifests current cached)
    ∧ (∀ ch ∈ DiffManifests current cached,
        ch.type = "added" ∨ ch.type = "modified" ∨ ch.type = "deleted") := by
  have hseen : current.map (fun pv => normalizeKey pv.1) = keysOf current := rfl
  have hmemsort : ∀ ch : FileChange,
      ch ∈ DiffManifests current cached ↔
        ch ∈ current.filterMap (diffFirstPassF cached)
          ∨ ch ∈ cached.filterMap (diffDeletedF (keysOf current)) := by
    intro ch
    rw [DiffManifests, hseen, mem_sortBy, List.mem_append]
  have hdel_mem : ∀ p t, ({ path := p, type := t } : FileChange) ∈
      cached.filterMap (diffDeletedF (keysOf current)) ↔
        t = "deleted" ∧ p ∈ keysOf cached ∧ p ∉ keysOf current := by
    intro p t
    rw [List.mem_filterMap]
    constructor
    · rintro ⟨pv, hpv, hf⟩
      obtain ⟨hch, hns⟩ := diffDeletedF_some _ _ _ hf
      simp only [FileChange.mk.injEq] at hch
      obtain ⟨hp, ht⟩ := hch
      subst hp
      exact ⟨ht, List.mem_map.mpr ⟨pv, hpv, rfl⟩, (contains_false_iff _ _).mp hns⟩
    · rintro ⟨rfl, hmem, hnot⟩
      obtain ⟨pv, hpv, hfst⟩ := List.mem_map.mp hmem
      refine ⟨pv, hpv, ?_⟩
      have hcont : (keysOf current).contains pv.1 = false :=
        (contains_false_iff _ _).mpr (by rw [hfst]; exact hnot)
      unfold diffDeletedF
      rw [hcont, hfst]
      simp
  have hfp_mem_added : ∀ p, ({ path := p, type := "added" } : FileChange) ∈
      current.filterMap (diffFirstPassF cached) ↔
        p ∈ keysOf current ∧ cached.lookup p = none := by
    intro p
    rw [List.mem_filterMap]
    constructor
    · rintro ⟨pv, hpv, hf⟩
      obtain ⟨hp, hnone⟩ := (diffFirstPassF_eq_added cached pv p).mp hf
      exact ⟨List.mem_map.mpr ⟨pv, hpv, hp⟩, hnone⟩
    · rintro ⟨hmem, hnone⟩
      obtain ⟨pv, hpv, hfst⟩ := List.mem_map.mp hmem
      exact ⟨pv, hpv, (diffFirstPassF_eq_added cached pv p).mpr ⟨hfst, hnone⟩⟩
  have hfp_mem_modified : ∀ p, ({ path := p, type := "modified" } : FileChange) ∈
      current.filterMap (diffFirstPassF cached) ↔
        ∃ h1 h2, current.lookup p = some h1 ∧ cached.lookup p = some h2 ∧ h2 ≠ h1 := by
    intro p
    rw [List.mem_filterMap]
    constructor
    · rintro ⟨pv, hpv, hf⟩
      obtain ⟨hp, c0, hc0, hne⟩ := (diffFirstPassF_eq_modified cached pv p).mp hf
      refine ⟨pv.2, c0, ?_, hc0, hne⟩
      rw [← hp]
      exact (mem_iff_lookup_of_nodup hc pv.1 pv.2).mp hpv
    · rintro ⟨h1, h2, hl1, hl2, hne⟩
      refine ⟨(p, h1), lookup_mem hl1, ?_⟩
      exact (diffFirstPassF_eq_modified cached (p, h1) p).mpr ⟨rfl, h2, hl2, hne⟩
  have hnodup : ((current.filterMap (diffFirstPassF cached)
      ++ cached.filterMap (diffDeletedF (keysOf current))).map FileChange.path).Nodup := by
    rw [List.map_append, List.nodup_append]
    refine ⟨(map_path_filterMap_sublist _ (diffFirstPassF_path cached) current).nodup hc,
      (map_path_filterMap_sublist _ (fun pv ch h => ((diffDeletedF_some _ pv ch h).1 ▸ rfl))
        cached).nodup hb, ?_⟩
    intro a ha hb2
    obtain ⟨ch, hch, hpath⟩ := List.mem_map.mp ha
    obtain ⟨ch2, hch2, hpath2⟩ := List.mem_map.mp hb2
    obtain ⟨pv, hpv, hf⟩ := List.mem_filterMap.mp hch
    obtain ⟨pv2, hpv2, hf2⟩ := List.mem_filterMap.mp hch2
    obtain ⟨hch2eq, hns⟩ := diffDeletedF_some _ _ _ hf2
    have hkey : a ∈ keysOf current := by
      rw [← hpath, diffFirstPassF_path cached pv ch hf]
      exact List.mem_map.mpr ⟨pv, hpv, rfl⟩
    have : a = pv2.1 := by rw [← hpath2, hch2eq]
    subst this
    exact absurd hkey ((contains_false_iff _ _).mp hns)
  have hperm : List.Perm (DiffManifests current cached)
      (current.filterMap (diffFirstPassF cached)
        ++ cached.filterMap (diffDeletedF (keysOf current))) := by
    rw [DiffManifests, hseen]
    exact sortBy_perm _ _
  have hnodup_sorted : ((DiffManifests current cached).map FileChange.path).Nodup :=
    ((hperm.map FileChange.path).nodup_iff).mpr hnodup
  have hsorted_le : List.Pairwise (fun a b : FileChange => strLe a.path b.path = true)
      (DiffManifests current cached) := by
    rw [DiffManifests, hseen]
    exact sortBy_pairwise (fun a b : FileChange => strLe a.path b.path)
      (fun a b => strLe_total a.path b.path)
      (fun a b c h1 h2 => strLe_trans h1 h2) _
  have htype_fp : ∀ ch ∈ current.filterMap (diffFirstPassF cached),
      ch.type = "added" ∨ ch.type = "modified" := by
    intro ch h
    obtain ⟨pv, _, hf⟩ := List.mem_filterMap.mp h
    unfold diffFirstPassF at hf
    rcases hl : cached.lookup (normalizeKey pv.1) with _ | c0 <;> simp only [hl] at hf
    · left
      exact (congrArg FileChange.type (Option.some.inj hf)).symm
    · by_cases hcc : c0 ≠ pv.2
      · rw [if_pos hcc] at hf
        right
        exact (congrArg FileChange.type (Option.some.inj hf)).symm
      · rw [if_neg hcc] at hf
        cases hf
  refine ⟨?_, ?_, ?_, hnodup_sorted, ?_, ?_⟩
  · intro p
    rw [hmemsort]
    constructor
    · rintro (h | h)
      · obtain ⟨hmem, hnone⟩ := (hfp_mem_added p).mp h
        exact ⟨hmem, (lookup_eq_none_iff p cached).mp hnone⟩
      · exact absurd ((hdel_mem p "added").mp h).1 (by simp)
    · intro h
      exact Or.inl ((hfp_mem_added p).mpr ⟨h.1, (lookup_eq_none_iff p cached).mpr h.2⟩)
  · intro p
    rw [hmemsort]
    constructor
    · rintro (h | h)
      · exact (hfp_mem_modified p).mp h
      · exact absurd ((hdel_mem p "modified").mp h).1 (by simp)
    · intro h
      exact Or.inl ((hfp_mem_modified p).mpr h)
  · intro p
    rw [hmemsort]
    constructor
    · rintro (h | h)
      · exact absurd (htype_fp _ h) (by simp)
      · exact ((hdel_mem p "deleted").mp h).2
    · intro h
      exact Or.inr ((hdel_mem p "deleted").mpr ⟨rfl, h⟩)
  · have hne : List.Pairwise (fun a b : FileChange => a.path ≠ b.path)
        (DiffManifests current cached) := by
      have := hnodup_sorted
      rw [List.Nodup, List.pairwise_map] at this
      exact this
    exact (hsorted_le.and hne).imp (fun h => strLe_strLt_of_ne h.1 h.2)
  · intro ch hch
    rcases (hmemsort ch).mp hch with h | h
    · rcases htype_fp ch h with ht | ht
      · exact Or.inl ht
      · exact Or.inr (Or.inl ht)
    · obtain ⟨pv, _, hf⟩ := List.mem_filterMap.mp h
      right; right
      rw [(diffDeletedF_some _ _ _ hf).1]

/-- Witness for C5 at concrete manifests: one added, one modified, one
deleted key, each classified as the claim demands. -/
theorem DiffManifests_spec_witness :
    ({ path := "c.txt", type := "added" } : FileChange) ∈
      DiffManifests [("b.wav", "h2"), ("a.als", "h1"), ("c.txt", "h3")]
        [("a.als", "h1"), ("b.wav", "hX"), ("d.bin", "h4")]
    ∧ ({ path := "b.wav", type := "modified" } : FileChange) ∈
      DiffManifests [("b.wav", "h2"), ("a.als", "h1"), ("c.txt", "h3")]
        [("a.als", "h1"), ("b.wav", "hX"), ("d.bin", "h4")]
    ∧ ({ path := "d.bin", type := "deleted" } : FileChange) ∈
      DiffManifests [("b.wav", "h2"), ("a.als", "h1"), ("c.txt", "h3")]
        [("a.als", "h1"), ("b.wav", "hX"), ("d.bin", "h4")] := by
  have H := DiffManifests_spec
    [("b.wav", "h2"), ("a.als", "h1"), ("c.txt", "h3")]
    [("a.als", "h1"), ("b.wav", "hX"), ("d.bin", "h4")]
    (by decide) (by decide)
  exact ⟨(H.1 "c.txt").mpr (by decide),
    (H.2.1 "b.wav").mpr ⟨"h2", "hX", by decide, by decide, by decide⟩,
    (H.2.2.1 "d.bin").mpr (by decide)⟩

/-! ## Claim C4: BuildManifest on unreadable roots -/

/-- Claim C4, counterexample: BuildManifest on an unreadable root does
not fail with an IoError — the walk callback swallows every walk error,
so an unreadable root (even one containing hashable files) yields an
empty manifest with a nil error. -/
theorem BuildManifest_unreadable_root_cx :
    BuildManifest
        { name := "proj", readable := false,
          children := [FsEntry.file "a.wav"
            { hashable := true, sha256 := "h1", size := 3, modified := 1 }] } 0 =
      Except.ok { projectName := "", projectPath := "", files := [], createdAt := 0,
                  algo := "" } := rfl

/-- Claim C4 as amended: unreadable entries are skipped silently —
including the root itself — and the walk never aborts: BuildManifest
never returns an error, and an unreadable root yields the empty manifest
rather than an IoError. -/
theorem BuildManifest_never_errors (root : FsRoot) (now : Int) :
    (∃ s, BuildManifest root now = Except.ok s)
    ∧ (root.readable = false →
        BuildManifest root now =
          Except.ok { projectName := "", projectPath := "", files := [],
                      createdAt := now, algo := "" }) := by
  constructor
  · exact ⟨_, rfl⟩
  · intro h
    unfold BuildManifest
    rw [h]
    by_cases hskip : skipDirNames.contains root.name = true <;> simp [hskip, sortBy]

/-- Witness for the amended C4 theorem on a concrete unreadable root. -/
theorem BuildManifest_never_errors_witness :
    BuildManifest { name := "proj", readable := false, children := [] } 7 =
      Except.ok { projectName := "", projectPath := "", files := [], createdAt := 7,
                  algo := "" } :=
  (BuildManifest_never_errors { name := "proj", readable := false, children := [] } 7).2 rfl

/-! ## Path-segment lemmas for the scanner invariants -/

theorem splitSegCL_ne_nil : ∀ l : List Char, splitSegCL l ≠ []
  | [] => by simp [splitSegCL]
  | c :: rest => by
    have hne := splitSegCL_ne_nil rest
    unfold splitSegCL
    rcases hr : splitSegCL rest with _ | ⟨s, ss⟩
    · exact absurd hr hne
    · by_cases hc : c = '/' <;> simp [hc]

theorem splitSegCL_no_slash : ∀ l : List Char, '/' ∉ l → splitSegCL l = [l]
  | [], _ => rfl
  | c :: rest, h => by
    have hc : c ≠ '/' := fun he => h (he ▸ List.mem_cons_self c rest)
    have hrest : '/' ∉ rest := fun hm => h (List.mem_cons_of_mem c hm)
    have hstep : splitSegCL (c :: rest) =
        match splitSegCL rest with
        | [] => []
        | s :: ss => if c = '/' then [] :: s :: ss else (c :: s) :: ss := rfl
    rw [hstep, splitSegCL_no_slash rest hrest]
    simp [hc]

theorem splitSegCL_append : ∀ (d rest : List Char), '/' ∉ d →
    splitSegCL (d ++ '/' :: rest) = d :: splitSegCL rest
  | [], rest, _ => by
    have hstep : splitSegCL ([] ++ '/' :: rest) =
        match splitSegCL rest with
        | [] => []
        | s :: ss => if '/' = '/' then [] :: s :: ss else ('/' :: s) :: ss := rfl
    rcases hr : splitSegCL rest with _ | ⟨s, ss⟩
    · exact absurd hr (splitSegCL_ne_nil rest)
    · rw [hstep, hr]
      simp
  | c :: d', rest, h => by
    have hc : c ≠ '/' := fun he => h (he ▸ List.mem_cons_self c d')
    have hd' : '/' ∉ d' := fun hm => h (List.mem_cons_of_mem c hm)
    have hstep : splitSegCL ((c :: d') ++ '/' :: rest) =
        match splitSegCL (d' ++ '/' :: rest) with
        | [] => []
        | s :: ss => if c = '/' then [] :: s :: ss else (c :: s) :: ss := rfl
    rw [hstep, splitSegCL_append d' rest hd']
    simp [hc]

theorem string_data_append (a b : String) : (a ++ b).data = a.data ++ b.data := rfl

theorem pathSegs_append_slash (d p : String) (hd : '/' ∉ d.data) :
    pathSegs (d ++ "/" ++ p) = d :: pathSegs p := by
  unfold pathSegs
  have hdata : (d ++ "/" ++ p).data = d.data ++ '/' :: p.data := by
    rw [string_data_append, string_data_append]
    simp
  rw [hdata, splitSegCL_append d.data p.data hd, List.map_cons]

theorem pathSegs_no_slash (p : String) (hp : '/' ∉ p.data) : pathSegs p = [p] := by
  unfold pathSegs
  rw [splitSegCL_no_slash p.data hp]
  rfl

theorem pathSegs_ne_nil (p : String) : pathSegs p ≠ [] := by
  unfold pathSegs
  intro h
  exact splitSegCL_ne_nil p.data (List.map_eq_nil_iff.mp h)

theorem validNameB_spec (n : String) (h : validNameB n = true) :
    n ≠ "" ∧ n ≠ "." ∧ n ≠ ".." ∧ '/' ∉ n.data := by
  unfold validNameB at h
  simp only [Bool.and_eq_true, decide_eq_true_eq, Bool.not_eq_true'] at h
  obtain ⟨⟨⟨h1, h2⟩, h3⟩, h4⟩ := h
  refine ⟨h1, h2, h3, ?_⟩
  intro hm
  have : n.data.contains '/' = true := List.elem_iff.mpr hm
  rw [this] at h4
  cases h4

theorem strAppend_left_cancel {a x y : String} (h : a ++ x = a ++ y) : x = y := by
  have hd : a.data ++ x.data = a.data ++ y.data := by
    rw [← string_data_append, ← string_data_append, h]
  have := List.append_cancel_left hd
  cases x
  cases y
  exact congrArg String.mk this

theorem headSeg_prepend (d p : String) (hd : '/' ∉ d.data) :
    headSeg (d ++ "/" ++ p) = d := by
  unfold headSeg
  rw [pathSegs_append_slash d p hd]
  rfl

theorem headSeg_no_slash (p : String) (hp : '/' ∉ p.data) : headSeg p = p := by
  unfold headSeg
  rw [pathSegs_no_slash p hp]
  rfl

/-! ## Claim C7: scanner invariants -/

theorem treeSha256sL_subset {e : FsEntry} :
    ∀ {l : List FsEntry}, e ∈ l → ∀ h ∈ treeSha256s e, h ∈ treeSha256sL l := by
  intro l
  induction l with
  | nil => intro hmem; cases hmem
  | cons e' es ih =>
    intro hmem hh hhm
    show hh ∈ treeSha256s e' ++ treeSha256sL es
    rcases List.mem_cons.mp hmem with heq | hmem2
    · subst heq
      exact List.mem_append.mpr (Or.inl hhm)
    · exact List.mem_append.mpr (Or.inr (ih hmem2 hh hhm))

theorem wfEntry_dir {name : String} {readable : Bool} {children : List FsEntry}
    (h : wfEntry (.dir name readable children) = true) :
    validNameB name = true ∧ wfEntries children = true := by
  unfold wfEntry at h
  simp only [Bool.and_eq_true] at h
  obtain ⟨⟨h1, h2⟩, h3⟩ := h
  refine ⟨h1, ?_⟩
  simp [wfEntries, h2, h3]

theorem wfEntriesAll_of_wf {l : List FsEntry} (h : wfEntries l = true) :
    wfEntriesAll l = true := by
  simp only [wfEntries, Bool.and_eq_true] at h
  exact h.2

theorem wfEntries_cons {e : FsEntry} {es : List FsEntry} (h : wfEntries (e :: es) = true) :
    wfEntry e = true ∧ wfEntries es = true ∧ entryName e ∉ es.map entryName := by
  rw [wfEntries, List.map_cons] at h
  unfold namesNodup wfEntriesAll at h
  simp only [Bool.and_eq_true, Bool.not_eq_true'] at h
  obtain ⟨⟨hnc, hnn⟩, hwe, hwall⟩ := h
  refine ⟨hwe, ?_, (contains_false_iff _ _).mp hnc⟩
  simp [wfEntries, hnn, hwall]

mutual

theorem walkEntry_pointwise : ∀ (e : FsEntry), wfEntry e = true →
    ∀ fe ∈ walkEntry e, headSeg fe.path = entryName e
      ∧ noDotDotSegs fe.path = true
      ∧ dirSegsAllowed fe.path = true
      ∧ fe.hash ∈ treeSha256s e
  | .symlink _, _ => by
    intro fe hfe
    cases hfe
  | .file name m, hwf => by
    intro fe hfe
    unfold wfEntry at hwf
    have hv := validNameB_spec name hwf
    unfold walkEntry at hfe
    by_cases hjunk : junkFileNames.contains name = true
    · rw [if_pos hjunk] at hfe
      cases hfe
    · rw [if_neg hjunk] at hfe
      by_cases hh : m.hashable = true
      · have hsome : hashFileSHA256 m = some (m.sha256, m.size, m.modified) := by
          rw [hashFileSHA256, if_pos hh]
        simp only [hsome] at hfe
        have hfe2 := List.mem_singleton.mp hfe
        subst hfe2
        refine ⟨headSeg_no_slash name hv.2.2.2, ?_, ?_, ?_⟩
        · simp [noDotDotSegs, pathSegs_no_slash name hv.2.2.2, hv.2.2.1]
        · simp [dirSegsAllowed, pathSegs_no_slash name hv.2.2.2]
        · show m.sha256 ∈ treeSha256s (.file name m)
          simp [treeSha256s]
      · have hnone : hashFileSHA256 m = none := by
          rw [hashFileSHA256, if_neg hh]
        simp only [hnone] at hfe
        cases hfe
  | .dir name readable children, hwf => by
    intro fe hfe
    obtain ⟨hvn, hwfch⟩ := wfEntry_dir hwf
    have hv := validNameB_spec name hvn
    unfold walkEntry at hfe
    by_cases hskip : skipDirNames.contains name = true
    · rw [if_pos hskip] at hfe
      cases hfe
    · rw [if_neg hskip] at hfe
      by_cases hread : (!readable) = true
      · rw [if_pos hread] at hfe
        cases hfe
      · rw [if_neg hread] at hfe
        obtain ⟨fe', hfe', hfeq⟩ := List.mem_map.mp hfe
        subst hfeq
        obtain ⟨⟨e, he, _, hhash⟩, hnd, hds⟩ :=
          walkEntries_pointwise children (wfEntriesAll_of_wf hwfch) fe' hfe'
        refine ⟨headSeg_prepend name fe'.path hv.2.2.2, ?_, ?_, ?_⟩
        · show noDotDotSegs (name ++ "/" ++ fe'.path) = true
          rw [noDotDotSegs, pathSegs_append_slash name fe'.path hv.2.2.2]
          rw [noDotDotSegs] at hnd
          simp only [List.all_cons, Bool.and_eq_true]
          exact ⟨by simp [hv.2.2.1], hnd⟩
        · show dirSegsAllowed (name ++ "/" ++ fe'.path) = true
          rw [dirSegsAllowed, pathSegs_append_slash name fe'.path hv.2.2.2,
            List.dropLast_cons_of_ne_nil (pathSegs_ne_nil fe'.path)]
          rw [dirSegsAllowed] at hds
          simp only [List.all_cons, Bool.and_eq_true]
          refine ⟨?_, hds⟩
          cases hcontains : skipDirNames.contains name
          · rfl
          · exact absurd hcontains hskip
        · show fe'.hash ∈ treeSha256s (.dir name readable children)
          exact treeSha256sL_subset he fe'.hash hhash

theorem walkEntries_pointwise : ∀ (l : List FsEntry), wfEntriesAll l = true →
    ∀ fe ∈ walkEntries l,
      (∃ e ∈ l, headSeg fe.path = entryName e ∧ fe.hash ∈ treeSha256s e)
      ∧ noDotDotSegs fe.path = true
      ∧ dirSegsAllowed fe.path = true
  | [], _ => by
    intro fe hfe
    cases hfe
  | e :: es, hwf => by
    intro fe hfe
    have hwe : wfEntry e = true ∧ wfEntriesAll es = true := by
      unfold wfEntriesAll at hwf
      simpa [Bool.and_eq_true] using hwf
    unfold walkEntries at hfe
    rcases List.mem_append.mp hfe with hfe1 | hfe2
    · obtain ⟨hhead, hnd, hds, hhash⟩ := walkEntry_pointwise e hwe.1 fe hfe1
      exact ⟨⟨e, List.mem_cons_self e es, hhead, hhash⟩, hnd, hds⟩
    · obtain ⟨⟨e', he', hh, hhsh⟩, hnd, hds⟩ :=
        walkEntries_pointwise es hwe.2 fe hfe2
      exact ⟨⟨e', List.mem_cons_of_mem e he', hh, hhsh⟩, hnd, hds⟩

end

mutual

theorem walkEntry_paths_nodup : ∀ (e : FsEntry), wfEntry e = true →
    ((walkEntry e).map FileEntry.path).Nodup
  | .symlink _, _ => by simp [walkEntry]
  | .file name m, _ => by
    unfold walkEntry
    by_cases hjunk : junkFileNames.contains name = true
    · rw [if_pos hjunk]
      simp
    · rw [if_neg hjunk]
      rcases hh : hashFileSHA256 m with _ | trip <;> simp [hh]
  | .dir name readable children, hwf => by
    obtain ⟨_, hwfch⟩ := wfEntry_dir hwf
    unfold walkEntry
    by_cases hskip : skipDirNames.contains name = true
    · rw [if_pos hskip]
      simp
    · rw [if_neg hskip]
      by_cases hread : (!readable) = true
      · rw [if_pos hread]
        simp
      · rw [if_neg hread, List.map_map]
        have hcomp : (FileEntry.path ∘ prependDir name) =
            (fun p => name ++ "/" ++ p) ∘ FileEntry.path := rfl
        rw [hcomp, ← List.map_map]
        exact List.Nodup.map (fun x y hxy => strAppend_left_cancel hxy)
          (walkEntries_paths_nodup children hwfch)

theorem walkEntries_paths_nodup : ∀ (l : List FsEntry), wfEntries l = true →
    ((walkEntries l).map FileEntry.path).Nodup
  | [], _ => by simp [walkEntries]
  | e :: es, hwf => by
    obtain ⟨hwe, hwes, hnameNotIn⟩ := wfEntries_cons hwf
    unfold walkEntries
    rw [List.map_append, List.nodup_append]
    refine ⟨walkEntry_paths_nodup e hwe, walkEntries_paths_nodup es hwes, ?_⟩
    intro a ha hb
    obtain ⟨fe1, hfe1, hp1⟩ := List.mem_map.mp ha
    obtain ⟨fe2, hfe2, hp2⟩ := List.mem_map.mp hb
    have h1 := (walkEntry_pointwise e hwe fe1 hfe1).1
    obtain ⟨⟨e', he', hh2, _⟩, _, _⟩ :=
      walkEntries_pointwise es (wfEntriesAll_of_wf hwes) fe2 hfe2
    apply hnameNotIn
    have hna : entryName e = headSeg a := by rw [← hp1, h1]
    have hnb : headSeg a = entryName e' := by rw [← hp2, hh2]
    rw [hna, hnb]
    exact List.mem_map.mpr ⟨e', he', rfl⟩

end

/-- Claim C7: every ProjectState the Scanner produces over a well-formed
directory tree (sibling names distinct and valid, as a real filesystem
guarantees) has its files strictly ascending-sorted by path with unique
paths, no path contains a dot-dot segment, no path lies under .portsy or
any other ignored directory (no non-final segment is an ignored
directory name), and the state's algo field is the empty legacy value
that the code's own algo dispatch resolves to SHA-256 while every entry
hash is the SHA-256 digest of a file of the tree (the digest
HashFileSHA256 computed). -/
theorem BuildManifest_invariants (root : FsRoot) (now : Int) (s : ProjectState)
    (hwf : wfEntries root.children = true)
    (h : BuildManifest root now = Except.ok s) :
    List.Pairwise (fun a b : FileEntry => strLt a.path b.path = true) s.files
    ∧ (s.files.map FileEntry.path).Nodup
    ∧ (∀ fe ∈ s.files, noDotDotSegs fe.path = true ∧ dirSegsAllowed fe.path = true)
    ∧ s.algo = ""
    ∧ resolveAlgo s.algo = AlgoKind.sha256
    ∧ (∀ fe ∈ s.files, fe.hash ∈ treeSha256sL root.children) := by
  have hs := (Except.ok.inj h).symm
  subst hs
  have hmem0 : ∀ fe, fe ∈ (if skipDirNames.contains root.name then []
      else if !root.readable then [] else walkEntries root.children) →
      fe ∈ walkEntries root.children := by
    intro fe hfe
    by_cases h1 : skipDirNames.contains root.name = true
    · rw [if_pos h1] at hfe
      cases hfe
    · rw [if_neg h1] at hfe
      by_cases h2 : (!root.readable) = true
      · rw [if_pos h2] at hfe
        cases hfe
      · rw [if_neg h2] at hfe
        exact hfe
  have hnodup0 : ((if skipDirNames.contains root.name then []
      else if !root.readable then [] else walkEntries root.children).map
        FileEntry.path).Nodup := by
    by_cases h1 : skipDirNames.contains root.name = true
    · rw [if_pos h1]
      simp
    · rw [if_neg h1]
      by_cases h2 : (!root.readable) = true
      · rw [if_pos h2]
        simp
      · rw [if_neg h2]
        exact walkEntries_paths_nodup root.children hwf
  have hperm := sortBy_perm (fun a b : FileEntry => strLe a.path b.path)
    (if skipDirNames.contains root.name then []
     else if !root.readable then [] else walkEntries root.children)
  have hnodup : ((sortBy (fun a b : FileEntry => strLe a.path b.path)
      (if skipDirNames.contains root.name then []
       else if !root.readable then [] else walkEntries root.children)).map
        FileEntry.path).Nodup :=
    ((hperm.map FileEntry.path).nodup_iff).mpr hnodup0
  have hle := sortBy_pairwise (fun a b : FileEntry => strLe a.path b.path)
    (fun a b => strLe_total a.path b.path)
    (fun a b c h1 h2 => strLe_trans h1 h2)
    (if skipDirNames.contains root.name then []
     else if !root.readable then [] else walkEntries root.children)
  have hmem : ∀ fe, fe ∈ sortBy (fun a b : FileEntry => strLe a.path b.path)
      (if skipDirNames.contains root.name then []
       else if !root.readable then [] else walkEntries root.children) →
      fe ∈ walkEntries root.children := by
    intro fe hfe
    exact hmem0 fe ((mem_sortBy _ _ fe).mp hfe)
  refine ⟨?_, hnodup, ?_, rfl, ?_, ?_⟩
  · have hne : List.Pairwise (fun a b : FileEntry => a.path ≠ b.path)
        (sortBy (fun a b : FileEntry => strLe a.path b.path)
          (if skipDirNames.contains root.name then []
           else if !root.readable then [] else walkEntries root.children)) := by
      have := hnodup
      rw [List.Nodup, List.pairwise_map] at this
      exact this
    exact (hle.and hne).imp (fun hx => strLe_strLt_of_ne hx.1 hx.2)
  · intro fe hfe
    obtain ⟨_, hnd, hds⟩ :=
      walkEntries_pointwise root.children (wfEntriesAll_of_wf hwf) fe (hmem fe hfe)
    exact ⟨hnd, hds⟩
  · show resolveAlgo "" = AlgoKind.sha256
    decide
  · intro fe hfe
    obtain ⟨⟨e, he, _, hhash⟩, _, _⟩ :=
      walkEntries_pointwise root.children (wfEntriesAll_of_wf hwf) fe (hmem fe hfe)
    exact treeSha256sL_subset he fe.hash hhash

/-- Witness for C7 on a concrete project tree with a nested sample
directory, a skipped .portsy directory, a symlink and a junk file. -/
theorem BuildManifest_invariants_witness :
    List.Pairwise (fun a b : FileEntry => strLt a.path b.path = true)
      [{ path := "Samples/kick.wav", hash := "h2", size := 10, modified := 5, r2Key := "" },
       { path := "track.als", hash := "h1", size := 20, modified := 6, r2Key := "" }] := by
  have H := BuildManifest_invariants
    { name := "proj", readable := true, children := [
        FsEntry.dir "Samples" true
          [FsEntry.file "kick.wav" { hashable := true, sha256 := "h2", size := 10, modified := 5 }],
        FsEntry.file "track.als" { hashable := true, sha256 := "h1", size := 20, modified := 6 },
        FsEntry.dir ".portsy" true
          [FsEntry.file "cache.json" { hashable := true, sha256 := "h3", size := 5, modified := 5 }],
        FsEntry.symlink "link.als",
        FsEntry.file ".DS_Store" { hashable := true, sha256 := "h4", size := 1, modified := 1 }] }
    99
    { projectName := "", projectPath := "",
      files := [{ path := "Samples/kick.wav", hash := "h2", size := 10, modified := 5, r2Key := "" },
                { path := "track.als", hash := "h1", size := 20, modified := 6, r2Key := "" }],
      createdAt := 99, algo := "" }
    (by decide) rfl
  exact H.1

/-! ## C9: watcher debounce -/

theorem handleEvent_tracked (cfg : WatchCfg) (st : WatchState) (t : Nat) (ev : RawEvent)
    (h1 : ev.name = st.alsPath)
    (h2 : opQualifies ev.ops = true)
    (h3 : pathDir (mkLC st.alsPath) = mkLC cfg.projectPath)
    (h4 : isRealALS (lowerASCII (pathBase (mkLC st.alsPath))) = true)
    (h5 : st.alsPathLC = mkLC st.alsPath) :
    handleEvent cfg st t ev = { st with deadline := some (t + cfg.debounce) } := by
  have hbool : ¬((!true) = true) := by decide
  unfold handleEvent
  rw [h1, h2, if_neg hbool]
  have hne : ¬(pathDir (mkLC st.alsPath) ≠ mkLC cfg.projectPath) := fun hcon => hcon h3
  rw [if_neg hne, h4, if_neg hbool]
  have hor : mkLC st.alsPath = st.alsPathLC ∨
      lowerASCII (pathBase (mkLC st.alsPath)) = st.alsBaseLC := Or.inl h5.symm
  rw [if_pos hor]
  have hno : ¬(lowerASCII (pathBase (mkLC st.alsPath)) = st.alsBaseLC ∧
      mkLC st.alsPath ≠ st.alsPathLC) := fun hcon => hcon.2 h5.symm
  rw [if_neg hno]

theorem fireIfStable_statOk (cfg : WatchCfg) (st : WatchState) (env : FireEnv) (d k : Nat)
    (hstat : env.statOk = true)
    (hstable : waitFileStable env.polls cfg.attempts = some k) :
    fireIfStable cfg st env d = (st, some (d + k * cfg.interval)) := by
  unfold fireIfStable
  rw [hstat, hstable]
  rfl

theorem watchRun_cons_not_due (cfg : WatchCfg) (fireEnvAt : Nat → FireEnv)
    (st : WatchState) (t : Nat) (ev : RawEvent) (rest : List (Nat × RawEvent))
    (h : ∀ d, st.deadline = some d → t < d) :
    watchRun cfg fireEnvAt st ((t, ev) :: rest) =
      watchRun cfg fireEnvAt (handleEvent cfg st t ev) rest := by
  obtain ⟨sa, sl, sb, sd⟩ := st
  cases sd with
  | none => rfl
  | some d =>
    have ht : t < d := h d rfl
    conv_lhs => unfold watchRun
    dsimp only
    rw [if_neg (Nat.not_le.mpr ht)]

theorem watchRun_nil_due (cfg : WatchCfg) (fireEnvAt : Nat → FireEnv)
    (st : WatchState) (d : Nat) (h : st.deadline = some d) :
    watchRun cfg fireEnvAt st [] =
      ((fireIfStable cfg { st with deadline := none } (fireEnvAt d) d).1,
       (fireIfStable cfg { st with deadline := none } (fireEnvAt d) d).2.toList) := by
  obtain ⟨sa, sl, sb, sd⟩ := st
  dsimp only at h
  subst h
  rfl

theorem watchRun_burst (cfg : WatchCfg) (fireEnvAt : Nat → FireEnv) (alsPath : String)
    (hdir : pathDir (mkLC alsPath) = mkLC cfg.projectPath)
    (hals : isRealALS (lowerASCII (pathBase (mkLC alsPath))) = true) :
    ∀ (events : List (Nat × RawEvent)) (st : WatchState) (teN : Nat × RawEvent),
      st.alsPath = alsPath → st.alsPathLC = mkLC alsPath →
      st.alsBaseLC = lowerASCII (pathBase (mkLC alsPath)) →
      (∀ te ∈ events, te.2.name = alsPath ∧ opQualifies te.2.ops = true) →
      List.Chain' (fun a b : Nat × RawEvent => b.1 < a.1 + cfg.debounce) events →
      events.getLast? = some teN →
      (st.deadline = none ∨ ∃ d0, st.deadline = some d0 ∧
        ∀ te0, events.head? = some te0 → te0.1 < d0) →
      (watchRun cfg fireEnvAt st events).2 =
        (fireIfStable cfg
          { alsPath := alsPath, alsPathLC := mkLC alsPath,
            alsBaseLC := lowerASCII (pathBase (mkLC alsPath)), deadline := none }
          (fireEnvAt (teN.1 + cfg.debounce)) (teN.1 + cfg.debounce)).2.toList := by
  intro events
  induction events with
  | nil =>
    intro st teN _ _ _ _ _ hlast _
    simp at hlast
  | cons te rest ih =>
    intro st teN hA hL hB hnames hchain hlast hdl
    obtain ⟨t, ev⟩ := te
    obtain ⟨sa, sl, sb, sd⟩ := st
    dsimp only at hA hL hB hdl
    subst hA
    subst hL
    subst hB
    have hq := hnames (t, ev) (List.mem_cons_self _ _)
    have hstep : watchRun cfg fireEnvAt ⟨sa, mkLC sa,
        lowerASCII (pathBase (mkLC sa)), sd⟩ ((t, ev) :: rest) =
        watchRun cfg fireEnvAt (handleEvent cfg ⟨sa, mkLC sa,
          lowerASCII (pathBase (mkLC sa)), sd⟩ t ev) rest := by
      apply watchRun_cons_not_due
      intro d hd
      dsimp only at hd
      rcases hdl with hnone | ⟨d0, hd0, hlt⟩
      · rw [hnone] at hd
        exact Option.noConfusion hd
      · rw [hd0] at hd
        have hd0d := Option.some.inj hd
        subst hd0d
        exact hlt (t, ev) rfl
    have hhandle : handleEvent cfg ⟨sa, mkLC sa,
        lowerASCII (pathBase (mkLC sa)), sd⟩ t ev =
        { alsPath := sa, alsPathLC := mkLC sa,
          alsBaseLC := lowerASCII (pathBase (mkLC sa)),
          deadline := some (t + cfg.debounce) } := by
      apply handleEvent_tracked
      · exact hq.1
      · exact hq.2
      · exact hdir
      · exact hals
      · rfl
    rw [hstep, hhandle]
    cases rest with
    | nil =>
      rw [List.getLast?_singleton] at hlast
      have hteN := Option.some.inj hlast
      subst hteN
      rw [watchRun_nil_due cfg fireEnvAt
        ⟨sa, mkLC sa, lowerASCII (pathBase (mkLC sa)), some (t + cfg.debounce)⟩
        (t + cfg.debounce) rfl]
    | cons te2 rest2 =>
      rw [List.getLast?_cons_cons] at hlast
      have hcc := List.chain'_cons.mp hchain
      refine ih ⟨sa, mkLC sa, lowerASCII (pathBase (mkLC sa)),
          some (t + cfg.debounce)⟩ teN rfl rfl rfl ?_ hcc.2 hlast
        (Or.inr ⟨t + cfg.debounce, rfl, ?_⟩)
      · intro te hte
        exact hnames te (List.mem_cons_of_mem _ hte)
      · intro te0 hhd
        rw [List.head?_cons] at hhd
        have hte0 := Option.some.inj hhd
        subst hte0
        exact hcc.1

/-- Claim C9: for every burst of at least one qualifying write event on the
tracked session file in which each inter-event gap is shorter than the
debounce duration, after which the tracked file is present and the
stability check succeeds at poll index k, the watcher run emits exactly
one save event for the whole burst, and its detection time is no earlier
than the debounce duration after the last event of the burst. -/
theorem WatchProjectALS_debounce (cfg : WatchCfg) (fireEnvAt : Nat → FireEnv)
    (alsPath : String) (events : List (Nat × RawEvent)) (teN : Nat × RawEvent) (k : Nat)
    (hdir : pathDir (mkLC alsPath) = mkLC cfg.projectPath)
    (hals : isRealALS (lowerASCII (pathBase (mkLC alsPath))) = true)
    (hnames : ∀ te ∈ events, te.2.name = alsPath ∧ opQualifies te.2.ops = true)
    (hchain : List.Chain' (fun a b : Nat × RawEvent => b.1 < a.1 + cfg.debounce) events)
    (hlast : events.getLast? = some teN)
    (hstat : (fireEnvAt (teN.1 + cfg.debounce)).statOk = true)
    (hstable : waitFileStable (fireEnvAt (teN.1 + cfg.debounce)).polls cfg.attempts = some k) :
    (watchRun cfg fireEnvAt (initWatchState alsPath) events).2 =
      [teN.1 + cfg.debounce + k * cfg.interval] ∧
    teN.1 + cfg.debounce ≤ teN.1 + cfg.debounce + k * cfg.interval := by
  constructor
  · rw [watchRun_burst cfg fireEnvAt alsPath hdir hals events (initWatchState alsPath) teN
      rfl rfl rfl hnames hchain hlast (Or.inl rfl)]
    rw [fireIfStable_statOk cfg _ _ _ k hstat hstable]
    rfl
  · exact Nat.le_add_right _ _

/-- Witness for C9: three writes to the tracked session file at 0, 500 and
1000 ms with a 750 ms debounce produce exactly one save event, detected at
1900 ms (the timer fire at 1750 plus one 150 ms stability-poll interval). -/
theorem WatchProjectALS_debounce_witness :
    (watchRun
      { projectName := "proj", projectPath := "/r/proj", debounce := 750,
        interval := 150, attempts := 10 }
      (fun _ => { statOk := true, reResolved := none,
                  polls := fun _ => { statOk := true, size := 10, mtimeNs := 3, openOk := true } })
      (initWatchState "/r/proj/track.als")
      [(0, { name := "/r/proj/track.als", ops := [FsOp.write] }),
       (500, { name := "/r/proj/track.als", ops := [FsOp.write] }),
       (1000, { name := "/r/proj/track.als", ops := [FsOp.write] })]).2 =
      [1900] ∧ (1750 : Nat) ≤ 1900 := by
  have H := WatchProjectALS_debounce
    { projectName := "proj", projectPath := "/r/proj", debounce := 750,
      interval := 150, attempts := 10 }
    (fun _ => { statOk := true, reResolved := none,
                polls := fun _ => { statOk := true, size := 10, mtimeNs := 3, openOk := true } })
    "/r/proj/track.als"
    [(0, { name := "/r/proj/track.als", ops := [FsOp.write] }),
     (500, { name := "/r/proj/track.als", ops := [FsOp.write] }),
     (1000, { name := "/r/proj/track.als", ops := [FsOp.write] })]
    (1000, { name := "/r/proj/track.als", ops := [FsOp.write] })
    1
    (by decide) (by decide) (by decide)
    (List.chain'_cons.mpr ⟨by decide,
      List.chain'_cons.mpr ⟨by decide, List.chain'_singleton _⟩⟩)
    (by decide) rfl rfl
  exact H

end Portsy
